import Mathlib

/-!
# md5lib.c: digest, exclusive-or, and the MD5-based CFB stream cipher

A shallow embedding of `src/md5lib.c` (the Lua binding of the md5 library).

* Lua strings are lists of bytes; a `const char *` that walks through a string is the
  suffix of the list that starts at the pointer, and the `size_t` count that goes with
  it is kept as a separate number, as in the C code.
* `luaL_error` and a failed `luaL_argcheck` do not return: they are the `error` results
  of `Except`.
* The digest function `md5 (message, len, output)` lives in `md5.c`; the cipher takes it
  as a parameter that maps a byte string to 16 bytes. The hash context `md5_t` lives
  there too: `lmd5` takes its operations as a parameter, and the accumulator that the
  specification describes is modelled next to it.
* `size_t` and `time_t` are 64 bits wide; whether plain `char` is signed is a parameter
  of the functions that convert a `char` (`decrypt`, `tohex`).
-/

namespace Md5lib

/-- One C `char`, as its unsigned value `0 .. 255`. -/
abbrev Byte := Fin 256

/-- The C operator `^` on two chars, seen on their unsigned values. -/
def bxor (a b : Byte) : Byte :=
  ⟨a.val ^^^ b.val, @Nat.xor_lt_two_pow a.val b.val 8 a.isLt b.isLt⟩

/-- `#define MAXKEY 256` -/
def MAXKEY : Nat := 256

/-- `#define BLOCKSIZE 16` -/
def BLOCKSIZE : Nat := 16

/-- The errors raised by the functions of `md5lib.c`, named after their messages. -/
inductive LuaError where
  /-- `luaL_argcheck (L, l1 == l2, 2, "lengths must be equal")` in `ex_or` -/
  | lengthsMustBeEqual
  /-- `luaL_error (L, "key too long (> %d)", MAXKEY)` in `initblock` -/
  | keyTooLong
  /-- `luaL_error (L, "seed too long (> %d)", BLOCKSIZE)` in `crypt` -/
  | seedTooLong
  /-- `luaL_argcheck (L, ..., 1, "invalid cyphered string")` in `decrypt` -/
  | invalidCypheredString
  /-- The type error of `luaL_checkudata (L, 2, MD5_TYPE)` in `lmd5`: the userdata is not
  an `md5_t` -/
  | md5_tExpected
  deriving DecidableEq, Repr

/-- The 16 bytes that `md5` writes to its output buffer. -/
abbrev Digest := { d : List Byte // d.length = BLOCKSIZE }

/-- The type of `md5 (message, len, output)`: the message bytes in, 16 bytes out. -/
abbrev Digest128 := List Byte → Digest

/-- `memset (dst, c, n)`: the first `n` bytes of the buffer become `c`. -/
def memset (dst : List Byte) (c : Byte) (n : Nat) : List Byte :=
  List.replicate n c ++ dst.drop n

/-- `memcpy (dst + off, src, n)`: bytes `off .. off + n` of the buffer become the first
`n` bytes at `src`. -/
def memcpy (dst : List Byte) (off : Nat) (src : List Byte) (n : Nat) : List Byte :=
  dst.take off ++ src.take n ++ dst.drop (off + n)

/-- The loop of `ex_or`: `while (l1--) luaL_addchar (&b, (*s1++) ^ (*s2++));` -/
def ex_or_loop : Nat → List Byte → List Byte → List Byte → List Byte
  | 0, _, _, b => b
  | l1 + 1, s1, s2, b =>
    ex_or_loop l1 s1.tail s2.tail (b ++ [bxor (s1.headD 0) (s2.headD 0)])

/-- `ex_or`: the bytewise exclusive-or of two strings of the same length. -/
def ex_or (s1 s2 : List Byte) : Except LuaError (List Byte) :=
  let l1 := s1.length
  let l2 := s2.length
  if l1 = l2 then .ok (ex_or_loop l1 s1 s2 []) else .error .lengthsMustBeEqual

/-- `checkseed`: when the third argument is absent, the bytes of the `time_t` value
returned by `time (NULL)` are pushed in its place. `tm` is the object representation of
that value (`sizeof (tm)` bytes). -/
def checkseed (tm : List Byte) (seed : Option (List Byte)) : List Byte :=
  match seed with
  | none => tm
  | some s => s

/-- `initblock`: checks the key length, then lays out the block as the seed, zero-padded
to `BLOCKSIZE`, followed by the key; returns the block and its active length. -/
def initblock (key seed : List Byte) (lseed : Nat) (block : List Byte) :
    Except LuaError (List Byte × Nat) :=
  let lkey := key.length
  if lkey > MAXKEY then .error .keyTooLong
  else
    let block := memset block 0 BLOCKSIZE
    let block := memcpy block 0 seed lseed
    let block := memcpy block BLOCKSIZE key lkey
    .ok (block, lkey + BLOCKSIZE)

/-- The variables of the inner `for` loop of `codestream` and `decodestream`. -/
structure XorState where
  code : List Byte
  i : Nat
  msg : List Byte
  lmsg : Nat
  deriving DecidableEq, Repr

/-- The inner loop `for (i=0; i<BLOCKSIZE && lmsg > 0; i++, lmsg--) code[i] ^= *msg++;`
(started at the given `i`). -/
def xorLoop (code : List Byte) (i : Nat) (msg : List Byte) : Nat → XorState
  | 0 => ⟨code, i, msg, 0⟩
  | lmsg + 1 =>
    if i < BLOCKSIZE then
      xorLoop (code.set i (bxor (code.getD i 0) (msg.headD 0))) (i + 1) msg.tail lmsg
    else ⟨code, i, msg, lmsg + 1⟩

/-- The `while (lmsg > 0)` loop of `codestream`; `b` is the `luaL_Buffer`. -/
def codestreamLoop (md5 : Digest128) (lblock : Nat) (msg : List Byte) (lmsg : Nat)
    (block b : List Byte) : List Byte :=
  if _h : lmsg > 0 then
    let code := (md5 (block.take lblock)).val
    let st := xorLoop code 0 msg lmsg
    codestreamLoop md5 lblock st.msg st.lmsg (memcpy block 0 st.code st.i)
      (b ++ st.code.take st.i)
  else b
termination_by lmsg
decreasing_by
  have key : ∀ (l : Nat) (c : List Byte) (i : Nat) (m : List Byte),
      i < BLOCKSIZE → 0 < l → (xorLoop c i m l).lmsg < l := by
    intro l
    induction l with
    | zero => intro _ _ _ _ h0; exact absurd h0 (Nat.lt_irrefl 0)
    | succ n ih =>
      intro c i m hi _
      rw [xorLoop, if_pos hi]
      cases n with
      | zero => simp [xorLoop]
      | succ k =>
        by_cases h2 : i + 1 < BLOCKSIZE
        · exact Nat.lt_succ_of_lt (ih _ _ _ h2 (Nat.succ_pos k))
        · rw [xorLoop, if_neg h2]; exact Nat.lt_succ_self _
  exact key lmsg _ 0 msg (by decide) _h

/-- `codestream`: the string pushed on the Lua stack by `luaL_pushresult`. -/
def codestream (md5 : Digest128) (msg : List Byte) (lmsg : Nat) (block : List Byte)
    (lblock : Nat) : List Byte :=
  codestreamLoop md5 lblock msg lmsg block []

/-- The `while (lcypher > 0)` loop of `decodestream`. The inner loop advances `cypher`
and `i` together from `i = 0`, so `cypher - i` is the value of `cypher` at the start of
the iteration. -/
def decodestreamLoop (md5 : Digest128) (lblock : Nat) (cypher : List Byte) (lcypher : Nat)
    (block b : List Byte) : List Byte :=
  if _h : lcypher > 0 then
    let code := (md5 (block.take lblock)).val
    let st := xorLoop code 0 cypher lcypher
    decodestreamLoop md5 lblock st.msg st.lmsg (memcpy block 0 cypher st.i)
      (b ++ st.code.take st.i)
  else b
termination_by lcypher
decreasing_by
  have key : ∀ (l : Nat) (c : List Byte) (i : Nat) (m : List Byte),
      i < BLOCKSIZE → 0 < l → (xorLoop c i m l).lmsg < l := by
    intro l
    induction l with
    | zero => intro _ _ _ _ h0; exact absurd h0 (Nat.lt_irrefl 0)
    | succ n ih =>
      intro c i m hi _
      rw [xorLoop, if_pos hi]
      cases n with
      | zero => simp [xorLoop]
      | succ k =>
        by_cases h2 : i + 1 < BLOCKSIZE
        · exact Nat.lt_succ_of_lt (ih _ _ _ h2 (Nat.succ_pos k))
        · rw [xorLoop, if_neg h2]; exact Nat.lt_succ_self _
  exact key lcypher _ 0 cypher (by decide) _h

/-- `decodestream`: the string pushed on the Lua stack by `luaL_pushresult`. -/
def decodestream (md5 : Digest128) (cypher : List Byte) (lcypher : Nat) (block : List Byte)
    (lblock : Nat) : List Byte :=
  decodestreamLoop md5 lblock cypher lcypher block []

/-- The local array `char block[BLOCKSIZE+MAXKEY]` of `crypt` and `decrypt`, before
anything is written to it (taken as zeroes). -/
def freshBlock : List Byte := List.replicate (BLOCKSIZE + MAXKEY) 0

/-- The conversion `(char) lseed` of a `size_t`, as an unsigned byte. -/
def charOfSize (n : Nat) : Byte := ⟨n % 256, Nat.mod_lt n (by decide)⟩

/-- `crypt (message, key [, seed])`: the seed length, the seed, then the message
enciphered in cipher-feedback mode. -/
def crypt (md5 : Digest128) (tm : List Byte) (msg key : List Byte)
    (seedArg : Option (List Byte)) : Except LuaError (List Byte) :=
  let lmsg := msg.length
  let seed := checkseed tm seedArg
  let lseed := seed.length
  if lseed > BLOCKSIZE then .error .seedTooLong
  else
    let block := freshBlock.set 0 (charOfSize lseed)
    let block := memcpy block 1 seed lseed
    let header := block.take (lseed + 1)
    match initblock key seed lseed block with
    | .error e => .error e
    | .ok (block, lblock) => .ok (header ++ codestream md5 msg lmsg block lblock)

/-- The number of values of `size_t` (64 bits). -/
def SIZE_MOD : Nat := 2 ^ 64

/-- The conversion of a `char` to `size_t` in `size_t lseed = cyphertext[0];`. Whether
plain `char` is signed is left to the platform: when it is, a byte of `0x80` or more is a
negative number and converts to a value near the top of `size_t`. -/
def sizeOfChar (charSigned : Bool) (c : Byte) : Nat :=
  if charSigned && decide (128 ≤ c.val) then SIZE_MOD - (256 - c.val) else c.val

/-- `decrypt (cyphertext, key)`. A Lua string is followed by a zero byte, which is what
`cyphertext[0]` reads when the string is empty. -/
def decrypt (charSigned : Bool) (md5 : Digest128) (cyphertext key : List Byte) :
    Except LuaError (List Byte) :=
  let lcyphertext := cyphertext.length
  let lseed := sizeOfChar charSigned (cyphertext.headD 0)
  let seed := cyphertext.drop 1
  if lcyphertext ≥ (lseed + 1) % SIZE_MOD ∧ lseed ≤ BLOCKSIZE then
    let cyphertext := cyphertext.drop (lseed + 1)
    let lcyphertext := lcyphertext - (lseed + 1)
    match initblock key seed lseed freshBlock with
    | .error e => .error e
    | .ok (block, lblock) => .ok (decodestream md5 cyphertext lcyphertext block lblock)
  else .error .invalidCypheredString

/-- A small stand-in for `md5`, used to run the cipher on concrete inputs: every output
byte is the sum of the input bytes plus the input length, modulo 256, plus the index. -/
def sampleDigest : Digest128 := fun m =>
  ⟨(List.range BLOCKSIZE).map (fun j => charOfSize ((m.map Fin.val).sum + m.length + j)),
    by simp⟩

/-- The promotion of a `char` to `int` in `str[i] & 0xff`: with a signed `char`, a byte
of `0x80` or more is a negative number. -/
def intOfChar (charSigned : Bool) (c : Byte) : Int :=
  if charSigned && decide (128 ≤ c.val) then (c.val : Int) - 256 else (c.val : Int)

/-- The operation `x & 0xff` on an `int` (two's complement): the low eight bits. -/
def andFF (x : Int) : Nat := (x % 256).toNat

/-- The characters written by `sprintf (hex, "%02x", v)`: `v` in lowercase hexadecimal,
padded with `0` on the left to at least two characters. -/
def sprintf_02x (v : Nat) : List Byte :=
  (List.leftpad 2 (Char.ofNat 48) (Nat.toDigits 16 v)).map (fun ch => charOfSize ch.toNat)

/-- The loop `for (i = 0; i < l; ++i)` of `tohex` (started at the given `i`): each turn
formats `str[i] & 0xff` and adds the first two characters of `hex` to the buffer. -/
def tohex_loop (charSigned : Bool) (str : List Byte) (l : Nat) (i : Nat) (b : List Byte) :
    List Byte :=
  if i < l then
    let hex := sprintf_02x (andFF (intOfChar charSigned (str.getD i 0)))
    tohex_loop charSigned str l (i + 1) (b ++ hex.take 2)
  else b
termination_by l - i

/-- `tohex`: the string in hexadecimal. -/
def tohex (charSigned : Bool) (str : List Byte) : List Byte :=
  tohex_loop charSigned str str.length 0 []

/-- The character for one hexadecimal digit `0 .. 15` in lowercase: `0` to `9`, then `a`
to `f` (ASCII). -/
def hexDigit (d : Nat) : Byte := charOfSize (if d < 10 then 48 + d else 87 + d)

/-- The size of `time_t` in bytes, on the 64-bit platform of `SIZE_MOD`. -/
def SIZEOF_TIME_T : Nat := 8

/-- The variables of the `while` loop of `codestream` and of `decodestream`. -/
structure StreamState where
  msg : List Byte
  lmsg : Nat
  block : List Byte
  b : List Byte
  deriving DecidableEq, Repr

/-- One turn of the `while` loop of `codestream`, on the variables of the loop. -/
def codestreamBody (md5 : Digest128) (lblock : Nat) (st : StreamState) : StreamState :=
  let code := (md5 (st.block.take lblock)).val
  let x := xorLoop code 0 st.msg st.lmsg
  ⟨x.msg, x.lmsg, memcpy st.block 0 x.code x.i, st.b ++ x.code.take x.i⟩

/-- One turn of the `while` loop of `decodestream`, on the variables of the loop. -/
def decodestreamBody (md5 : Digest128) (lblock : Nat) (st : StreamState) : StreamState :=
  let code := (md5 (st.block.take lblock)).val
  let x := xorLoop code 0 st.msg st.lmsg
  ⟨x.msg, x.lmsg, memcpy st.block 0 st.msg x.i, st.b ++ x.code.take x.i⟩

/-- The seed padded with zero bytes on the right to `BLOCKSIZE` bytes, as the
specification writes the first 16 bytes of the initial block. -/
def zeropad16 (S : List Byte) : List Byte := S ++ List.replicate (BLOCKSIZE - S.length) 0

/-- Chunk number `i` of a byte string cut in consecutive chunks of `BLOCKSIZE` bytes (the
last one may be shorter), as the specification cuts messages and payloads. -/
def chunk (i : Nat) (l : List Byte) : List Byte := (l.drop (BLOCKSIZE * i)).take BLOCKSIZE

/-- The hexadecimal form of a byte string as the specification describes it: for every
byte, the lowercase digit of its high four bits, then that of its low four bits. -/
def hexEncode : List Byte → List Byte
  | [] => []
  | c :: t => hexDigit (c.val / 16) :: hexDigit (c.val % 16) :: hexEncode t

/-! ## Exclusive-or -/

theorem bxor_cancel_right (a b : Byte) : bxor (bxor a b) b = a := by
  apply Fin.ext
  simp [bxor, Nat.xor_cancel_right]

theorem bxor_cancel_left (a b : Byte) : bxor a (bxor a b) = b := by
  apply Fin.ext
  simp [bxor, Nat.xor_cancel_left]

theorem ex_or_loop_eq : ∀ (s1 s2 b : List Byte), s1.length = s2.length →
    ex_or_loop s1.length s1 s2 b = b ++ List.zipWith bxor s1 s2 := by
  intro s1
  induction s1 with
  | nil => intro s2 b _; simp [ex_or_loop]
  | cons x xs ih =>
    intro s2 b h
    cases s2 with
    | nil => simp at h
    | cons y ys =>
      have h2 : xs.length = ys.length := by simpa using h
      simp [ex_or_loop, ih ys _ h2]

theorem ex_or_eq (s1 s2 : List Byte) (h : s1.length = s2.length) :
    ex_or s1 s2 = .ok (List.zipWith bxor s1 s2) := by
  have hl := ex_or_loop_eq s1 s2 [] h
  simp only [List.nil_append] at hl
  simp only [ex_or, if_pos h, hl]

theorem zipWith_bxor_cancel_right : ∀ (a b : List Byte), a.length = b.length →
    List.zipWith bxor (List.zipWith bxor a b) b = a := by
  intro a
  induction a with
  | nil => intro b _; simp
  | cons x xs ih =>
    intro b h
    cases b with
    | nil => simp at h
    | cons y ys =>
      have h2 : xs.length = ys.length := by simpa using h
      simp [bxor_cancel_right, ih ys h2]

/-! ## The inner loop -/

theorem xorLoop_append : ∀ (msg pre suf : List Byte),
    (pre ++ suf).length = BLOCKSIZE →
    xorLoop (pre ++ suf) pre.length msg msg.length =
      ⟨pre ++ List.zipWith bxor suf msg ++ suf.drop msg.length,
        pre.length + min suf.length msg.length, msg.drop suf.length,
        msg.length - suf.length⟩ := by
  intro msg
  induction msg with
  | nil => intro pre suf _; simp [xorLoop]
  | cons m rest ih =>
    intro pre suf hlen
    cases suf with
    | nil =>
      have hp : ¬ pre.length < BLOCKSIZE := by simp at hlen; omega
      simp [xorLoop, hp]
    | cons c suf1 =>
      have hp : pre.length < BLOCKSIZE := by simp at hlen; omega
      have hset : (pre ++ c :: suf1).set pre.length (bxor c m) = (pre ++ [bxor c m]) ++ suf1 := by
        simp
      have hget : (pre ++ c :: suf1).getD pre.length 0 = c := by
        rw [List.getD_eq_getElem?_getD, List.getElem?_append_right (Nat.le_refl _)]
        simp
      have hlen2 : ((pre ++ [bxor c m]) ++ suf1).length = BLOCKSIZE := by
        simp at hlen ⊢; omega
      have := ih (pre ++ [bxor c m]) suf1 hlen2
      simp only [List.length_append, List.length_singleton] at this
      simp only [List.length_cons, xorLoop, if_pos hp, hget, List.headD_cons, List.tail_cons,
        hset, this]
      simp
      omega

theorem xorLoop_zero (code msg : List Byte) (hc : code.length = BLOCKSIZE) :
    xorLoop code 0 msg msg.length =
      ⟨List.zipWith bxor code msg ++ code.drop msg.length, min BLOCKSIZE msg.length,
        msg.drop BLOCKSIZE, msg.length - BLOCKSIZE⟩ := by
  have := xorLoop_append msg [] code (by simpa using hc)
  simpa [hc] using this

/-! ## The outer loops, one iteration at a time -/

theorem take_zipWith_code (code msg : List Byte) (hc : code.length = BLOCKSIZE) :
    (List.zipWith bxor code msg ++ code.drop msg.length).take (min BLOCKSIZE msg.length) =
      List.zipWith bxor code msg :=
  List.take_left' (by simp [hc])

theorem codestreamLoop_zero (md5 : Digest128) (lblock : Nat) (msg block b : List Byte) :
    codestreamLoop md5 lblock msg 0 block b = b := by
  rw [codestreamLoop]; simp

theorem decodestreamLoop_zero (md5 : Digest128) (lblock : Nat) (msg block b : List Byte) :
    decodestreamLoop md5 lblock msg 0 block b = b := by
  rw [decodestreamLoop]; simp

theorem codestreamLoop_step (md5 : Digest128) (lblock : Nat) (msg block b : List Byte)
    (h : 0 < msg.length) :
    codestreamLoop md5 lblock msg msg.length block b =
      codestreamLoop md5 lblock (msg.drop BLOCKSIZE) (msg.drop BLOCKSIZE).length
        (List.zipWith bxor (md5 (block.take lblock)).val msg
          ++ block.drop (min BLOCKSIZE msg.length))
        (b ++ List.zipWith bxor (md5 (block.take lblock)).val msg) := by
  conv_lhs => rw [codestreamLoop]
  have hc := (md5 (block.take lblock)).property
  simp only [gt_iff_lt, h, dite_true, xorLoop_zero _ msg hc, take_zipWith_code _ msg hc,
    memcpy, List.take_zero, List.nil_append, Nat.zero_add, List.length_drop]

theorem decodestreamLoop_step (md5 : Digest128) (lblock : Nat) (cy block b : List Byte)
    (h : 0 < cy.length) :
    decodestreamLoop md5 lblock cy cy.length block b =
      decodestreamLoop md5 lblock (cy.drop BLOCKSIZE) (cy.drop BLOCKSIZE).length
        (cy.take (min BLOCKSIZE cy.length) ++ block.drop (min BLOCKSIZE cy.length))
        (b ++ List.zipWith bxor (md5 (block.take lblock)).val cy) := by
  conv_lhs => rw [decodestreamLoop]
  have hc := (md5 (block.take lblock)).property
  simp only [gt_iff_lt, h, dite_true, xorLoop_zero _ cy hc, take_zipWith_code _ cy hc,
    memcpy, List.take_zero, List.nil_append, Nat.zero_add, List.length_drop]

/-- The buffer only grows: what was in it before the loop stays in front. -/
theorem codestreamLoop_buffer (md5 : Digest128) (lblock : Nat) (n : Nat) :
    ∀ (msg block b : List Byte), msg.length = n →
      codestreamLoop md5 lblock msg msg.length block b =
        b ++ codestreamLoop md5 lblock msg msg.length block [] := by
  induction n using Nat.strong_induction_on with
  | _ n ih =>
    intro msg block b hn
    by_cases h : 0 < msg.length
    · have hlt : (msg.drop BLOCKSIZE).length < n := by
        simp [BLOCKSIZE]; omega
      rw [codestreamLoop_step md5 lblock msg block b h,
        codestreamLoop_step md5 lblock msg block [] h,
        ih _ hlt _ _ (b ++ _) rfl, ih _ hlt _ _ ([] ++ _) rfl]
      simp
    · have h0 : msg.length = 0 := by omega
      simp [h0, codestreamLoop_zero]

theorem decodestreamLoop_buffer (md5 : Digest128) (lblock : Nat) (n : Nat) :
    ∀ (cy block b : List Byte), cy.length = n →
      decodestreamLoop md5 lblock cy cy.length block b =
        b ++ decodestreamLoop md5 lblock cy cy.length block [] := by
  induction n using Nat.strong_induction_on with
  | _ n ih =>
    intro cy block b hn
    by_cases h : 0 < cy.length
    · have hlt : (cy.drop BLOCKSIZE).length < n := by
        simp [BLOCKSIZE]; omega
      rw [decodestreamLoop_step md5 lblock cy block b h,
        decodestreamLoop_step md5 lblock cy block [] h,
        ih _ hlt _ _ (b ++ _) rfl, ih _ hlt _ _ ([] ++ _) rfl]
      simp
    · have h0 : cy.length = 0 := by omega
      simp [h0, decodestreamLoop_zero]

theorem codestream_nil (md5 : Digest128) (block : List Byte) (lblock : Nat) :
    codestream md5 [] 0 block lblock = [] := by
  simp [codestream, codestreamLoop_zero]

theorem decodestream_nil (md5 : Digest128) (block : List Byte) (lblock : Nat) :
    decodestream md5 [] 0 block lblock = [] := by
  simp [decodestream, decodestreamLoop_zero]

/-- One iteration of `codestream`: the chunk is the digest of the block xored with the
message, and the chunk replaces the front of the block. -/
theorem codestream_step (md5 : Digest128) (msg block : List Byte) (lblock : Nat)
    (h : 0 < msg.length) :
    codestream md5 msg msg.length block lblock =
      List.zipWith bxor (md5 (block.take lblock)).val msg ++
        codestream md5 (msg.drop BLOCKSIZE) (msg.drop BLOCKSIZE).length
          (List.zipWith bxor (md5 (block.take lblock)).val msg
            ++ block.drop (min BLOCKSIZE msg.length)) lblock := by
  unfold codestream
  rw [codestreamLoop_step md5 lblock msg block [] h,
    codestreamLoop_buffer md5 lblock _ _ _ _ rfl]
  simp

/-- One iteration of `decodestream`: the chunk is the digest of the block xored with the
cyphertext, and the cyphertext just read replaces the front of the block. -/
theorem decodestream_step (md5 : Digest128) (cy block : List Byte) (lblock : Nat)
    (h : 0 < cy.length) :
    decodestream md5 cy cy.length block lblock =
      List.zipWith bxor (md5 (block.take lblock)).val cy ++
        decodestream md5 (cy.drop BLOCKSIZE) (cy.drop BLOCKSIZE).length
          (cy.take (min BLOCKSIZE cy.length) ++ block.drop (min BLOCKSIZE cy.length))
          lblock := by
  unfold decodestream
  rw [decodestreamLoop_step md5 lblock cy block [] h,
    decodestreamLoop_buffer md5 lblock _ _ _ _ rfl]
  simp

/-! ## Length, dependence on the active part of the block, and inversion -/

theorem codestream_length (md5 : Digest128) (lblock : Nat) (n : Nat) :
    ∀ (msg block : List Byte), msg.length = n →
      (codestream md5 msg msg.length block lblock).length = msg.length := by
  induction n using Nat.strong_induction_on with
  | _ n ih =>
    intro msg block hn
    by_cases h : 0 < msg.length
    · have hlt : (msg.drop BLOCKSIZE).length < n := by
        simp [BLOCKSIZE]; omega
      rw [codestream_step md5 msg block lblock h, List.length_append, ih _ hlt _ _ rfl]
      simp [(md5 (block.take lblock)).property, BLOCKSIZE]
      omega
    · have h0 : msg = [] := List.length_eq_zero.mp (by omega)
      subst h0
      simp [codestream_nil]

theorem decodestream_length (md5 : Digest128) (lblock : Nat) (n : Nat) :
    ∀ (cy block : List Byte), cy.length = n →
      (decodestream md5 cy cy.length block lblock).length = cy.length := by
  induction n using Nat.strong_induction_on with
  | _ n ih =>
    intro cy block hn
    by_cases h : 0 < cy.length
    · have hlt : (cy.drop BLOCKSIZE).length < n := by
        simp [BLOCKSIZE]; omega
      rw [decodestream_step md5 cy block lblock h, List.length_append, ih _ hlt _ _ rfl]
      simp [(md5 (block.take lblock)).property, BLOCKSIZE]
      omega
    · have h0 : cy = [] := List.length_eq_zero.mp (by omega)
      subst h0
      simp [decodestream_nil]

theorem take_chunk_append (lblock k : Nat) (out b1 b2 : List Byte) (hk : out.length = k)
    (h : b1.take lblock = b2.take lblock) :
    (out ++ b1.drop k).take lblock = (out ++ b2.drop k).take lblock := by
  rw [List.take_append_eq_append_take, List.take_append_eq_append_take, hk,
    ← List.drop_take, ← List.drop_take, h]

/-- The stream written by `codestream` depends on the block only through its first
`lblock` bytes, the ones that `md5` reads. -/
theorem codestream_congr (md5 : Digest128) (lblock : Nat) (n : Nat) :
    ∀ (msg b1 b2 : List Byte), msg.length = n → b1.take lblock = b2.take lblock →
      codestream md5 msg msg.length b1 lblock = codestream md5 msg msg.length b2 lblock := by
  induction n using Nat.strong_induction_on with
  | _ n ih =>
    intro msg b1 b2 hn hb
    by_cases h : 0 < msg.length
    · have hlt : (msg.drop BLOCKSIZE).length < n := by
        simp [BLOCKSIZE]; omega
      rw [codestream_step md5 msg b1 lblock h, codestream_step md5 msg b2 lblock h, hb]
      congr 1
      apply ih _ hlt _ _ _ rfl
      apply take_chunk_append _ _ _ _ _ _ hb
      simp [(md5 (b2.take lblock)).property]
    · have h0 : msg = [] := List.length_eq_zero.mp (by omega)
      subst h0
      simp [codestream_nil]

theorem decodestream_congr (md5 : Digest128) (lblock : Nat) (n : Nat) :
    ∀ (cy b1 b2 : List Byte), cy.length = n → b1.take lblock = b2.take lblock →
      decodestream md5 cy cy.length b1 lblock = decodestream md5 cy cy.length b2 lblock := by
  induction n using Nat.strong_induction_on with
  | _ n ih =>
    intro cy b1 b2 hn hb
    by_cases h : 0 < cy.length
    · have hlt : (cy.drop BLOCKSIZE).length < n := by
        simp [BLOCKSIZE]; omega
      rw [decodestream_step md5 cy b1 lblock h, decodestream_step md5 cy b2 lblock h, hb]
      congr 1
      apply ih _ hlt _ _ _ rfl
      apply take_chunk_append _ _ _ _ _ _ hb
      simp
    · have h0 : cy = [] := List.length_eq_zero.mp (by omega)
      subst h0
      simp [decodestream_nil]

theorem zipWith_bxor_cancel_left : ∀ (code msg : List Byte),
    List.zipWith bxor code (List.zipWith bxor code msg) = msg.take code.length := by
  intro code
  induction code with
  | nil => intro msg; simp
  | cons c cs ih =>
    intro msg
    cases msg with
    | nil => simp
    | cons m ms => simp [bxor_cancel_left, ih ms]

theorem zipWith_append_right_of_le : ∀ (code out rest : List Byte),
    code.length ≤ out.length →
    List.zipWith bxor code (out ++ rest) = List.zipWith bxor code out := by
  intro code
  induction code with
  | nil => intro out rest _; simp
  | cons c cs ih =>
    intro out rest h
    cases out with
    | nil => simp at h
    | cons o os =>
      have h2 : cs.length ≤ os.length := by simpa using h
      simp [ih os rest h2]

/-- Deciphering the stream written by `codestream`, from the same block, gives the
message back. -/
theorem decodestream_codestream (md5 : Digest128) (lblock : Nat) (n : Nat) :
    ∀ (msg block : List Byte), msg.length = n →
      decodestream md5 (codestream md5 msg msg.length block lblock) msg.length block lblock
        = msg := by
  induction n using Nat.strong_induction_on with
  | _ n ih =>
    intro msg block hn
    by_cases h : 0 < msg.length
    · have hlt : (msg.drop BLOCKSIZE).length < n := by
        simp [BLOCKSIZE]; omega
      have hc := (md5 (block.take lblock)).property
      have hlen := codestream_length md5 lblock _ msg block rfl
      have hpos : 0 < (codestream md5 msg msg.length block lblock).length := by
        rw [hlen]; exact h
      have hstep := decodestream_step md5 (codestream md5 msg msg.length block lblock) block
        lblock hpos
      rw [hlen] at hstep
      rw [hstep]
      clear hstep hpos hlen
      rw [codestream_step md5 msg block lblock h]
      generalize hout : List.zipWith bxor (md5 (block.take lblock)).val msg = out
      have houtlen : out.length = min BLOCKSIZE msg.length := by
        rw [← hout, List.length_zipWith, hc]
      generalize hblk : out ++ block.drop (min BLOCKSIZE msg.length) = blk
      have hrest := codestream_length md5 lblock _ (msg.drop BLOCKSIZE) blk rfl
      have hih := ih _ hlt (msg.drop BLOCKSIZE) blk rfl
      generalize hr : codestream md5 (msg.drop BLOCKSIZE) (msg.drop BLOCKSIZE).length blk
        lblock = rest at hrest hih
      have f1 : List.zipWith bxor (md5 (block.take lblock)).val (out ++ rest)
          = msg.take BLOCKSIZE := by
        by_cases hb : BLOCKSIZE ≤ msg.length
        · rw [zipWith_append_right_of_le _ _ _ (by rw [hc, houtlen]; omega), ← hout,
            zipWith_bxor_cancel_left, hc]
        · have hnil : rest = [] := List.length_eq_zero.mp (by
            rw [hrest, List.length_drop]; omega)
          rw [hnil, List.append_nil, ← hout, zipWith_bxor_cancel_left, hc]
      have f2 : (out ++ rest).drop BLOCKSIZE = rest := by
        by_cases hb : BLOCKSIZE ≤ msg.length
        · exact List.drop_left' (by rw [houtlen]; omega)
        · have hnil : rest = [] := List.length_eq_zero.mp (by
            rw [hrest, List.length_drop]; omega)
          rw [hnil, List.append_nil]
          exact List.drop_of_length_le (by rw [houtlen]; omega)
      have f3 : (out ++ rest).take (min BLOCKSIZE msg.length) = out :=
        List.take_left' houtlen
      rw [f1, f2, f3, hblk, hrest, hih, List.take_append_drop]
    · have h0 : msg = [] := List.length_eq_zero.mp (by omega)
      subst h0
      simp [codestream_nil, decodestream_nil]

/-! ## The block set up by `initblock`, and the two entry points unfolded -/

theorem initblock_keyTooLong (key seed block : List Byte) (lseed : Nat)
    (hk : MAXKEY < key.length) : initblock key seed lseed block = .error .keyTooLong := by
  simp [initblock, hk]

theorem initblock_ok (key seed block : List Byte) (lseed : Nat) (hk : key.length ≤ MAXKEY) :
    initblock key seed lseed block =
      .ok (memcpy (memcpy (memset block 0 BLOCKSIZE) 0 seed lseed) BLOCKSIZE key key.length,
        key.length + BLOCKSIZE) := by
  simp [initblock, Nat.not_lt.mpr hk]

/-- The active part of the block after `initblock`: the seed, zeroes up to `BLOCKSIZE`,
then the key. -/
theorem initblock_take (key seed block : List Byte) (lseed : Nat) (hs : lseed ≤ BLOCKSIZE)
    (hl : lseed ≤ seed.length) :
    (memcpy (memcpy (memset block 0 BLOCKSIZE) 0 seed lseed) BLOCKSIZE key key.length).take
        (key.length + BLOCKSIZE) =
      seed.take lseed ++ List.replicate (BLOCKSIZE - lseed) 0 ++ key := by
  have h1 : memcpy (memset block 0 BLOCKSIZE) 0 seed lseed =
      (seed.take lseed ++ List.replicate (BLOCKSIZE - lseed) 0) ++ block.drop BLOCKSIZE := by
    simp only [memcpy, memset, List.take_zero, List.nil_append, Nat.zero_add]
    rw [List.drop_append_eq_append_drop]
    simp [List.drop_replicate, Nat.sub_eq_zero_of_le hs]
  have hlen : (seed.take lseed ++ List.replicate (BLOCKSIZE - lseed) (0 : Byte)).length
      = BLOCKSIZE := by
    simp [Nat.min_eq_left hl]; omega
  rw [h1]
  simp only [memcpy]
  rw [List.take_left' hlen, List.take_of_length_le (Nat.le_refl _)]
  apply List.take_left'
  simp only [List.length_append] at hlen ⊢
  omega

theorem freshBlock_eq : freshBlock = 0 :: List.replicate (BLOCKSIZE + MAXKEY - 1) 0 := rfl

theorem header_eq (c : Byte) (seed : List Byte) :
    (memcpy (freshBlock.set 0 c) 1 seed seed.length).take (seed.length + 1) = c :: seed := by
  have h1 : (freshBlock.set 0 c).take 1 = [c] := by
    rw [freshBlock_eq]; rfl
  simp only [memcpy, h1, List.take_of_length_le (Nat.le_refl seed.length)]
  have h2 : ∀ X : List Byte, [c] ++ seed ++ X = (c :: seed) ++ X := by
    intro X; simp
  rw [h2]
  exact List.take_left' (by simp)

theorem charOfSize_val (n : Nat) (h : n ≤ BLOCKSIZE) : (charOfSize n).val = n := by
  simp only [charOfSize, BLOCKSIZE] at *
  omega

/-- What `crypt` returns when the seed and the key are within their bounds. -/
theorem crypt_eq (md5 : Digest128) (tm M K S : List Byte) (hk : K.length ≤ MAXKEY)
    (hs : S.length ≤ BLOCKSIZE) :
    crypt md5 tm M K (some S) =
      .ok (charOfSize S.length :: S ++ codestream md5 M M.length
        (S ++ List.replicate (BLOCKSIZE - S.length) 0 ++ K) (K.length + BLOCKSIZE)) := by
  simp only [crypt, checkseed, Nat.not_lt.mpr hs, if_false, initblock_ok _ _ _ _ hk,
    header_eq]
  congr 2
  apply codestream_congr md5 _ _ _ _ _ rfl
  rw [initblock_take K S _ S.length hs (Nat.le_refl _),
    List.take_of_length_le (Nat.le_refl _)]
  apply (List.take_of_length_le _).symm
  simp
  omega

theorem sizeOfChar_le (charSigned : Bool) (c : Byte) (h : c.val ≤ BLOCKSIZE) :
    sizeOfChar charSigned c = c.val := by
  have : ¬ 128 ≤ c.val := by simp only [BLOCKSIZE] at h; omega
  simp [sizeOfChar, this]

theorem sizeOfChar_gt (charSigned : Bool) (c : Byte) (h : BLOCKSIZE < c.val) :
    BLOCKSIZE < sizeOfChar charSigned c := by
  have hc := c.isLt
  simp only [sizeOfChar, SIZE_MOD, BLOCKSIZE] at *
  split <;> omega

/-- The check made by `decrypt`, in terms of the first byte read as `0 .. 255`. -/
theorem decrypt_check_iff (charSigned : Bool) (C : List Byte) :
    (C.length ≥ (sizeOfChar charSigned (C.headD 0) + 1) % SIZE_MOD
        ∧ sizeOfChar charSigned (C.headD 0) ≤ BLOCKSIZE) ↔
      (C ≠ [] ∧ (C.headD 0).val ≤ BLOCKSIZE ∧ (C.headD 0).val + 1 ≤ C.length) := by
  by_cases hle : (C.headD 0).val ≤ BLOCKSIZE
  · rw [sizeOfChar_le _ _ hle]
    have hmod : ((C.headD 0).val + 1) % SIZE_MOD = (C.headD 0).val + 1 := by
      simp only [SIZE_MOD, BLOCKSIZE] at *; omega
    rw [hmod]
    constructor
    · rintro ⟨h1, _⟩
      refine ⟨?_, hle, h1⟩
      intro hnil
      rw [hnil] at h1
      simp at h1
    · rintro ⟨_, _, h3⟩
      exact ⟨h3, hle⟩
  · have hgt := sizeOfChar_gt charSigned _ (Nat.lt_of_not_le hle)
    constructor
    · rintro ⟨_, h2⟩; omega
    · rintro ⟨_, h2, _⟩; omega

theorem decrypt_invalid (charSigned : Bool) (md5 : Digest128) (C K : List Byte)
    (h : ¬ (C ≠ [] ∧ (C.headD 0).val ≤ BLOCKSIZE ∧ (C.headD 0).val + 1 ≤ C.length)) :
    decrypt charSigned md5 C K = .error .invalidCypheredString := by
  rw [← decrypt_check_iff charSigned C] at h
  simp only [decrypt, if_neg h]

/-- What `decrypt` returns on an envelope that passes its check. -/
theorem decrypt_eq (charSigned : Bool) (md5 : Digest128) (C K : List Byte)
    (h : C ≠ [] ∧ (C.headD 0).val ≤ BLOCKSIZE ∧ (C.headD 0).val + 1 ≤ C.length) :
    decrypt charSigned md5 C K =
      match initblock K (C.drop 1) (C.headD 0).val freshBlock with
      | .error e => .error e
      | .ok (block, lblock) =>
        .ok (decodestream md5 (C.drop ((C.headD 0).val + 1))
          (C.length - ((C.headD 0).val + 1)) block lblock) := by
  have h2 := (decrypt_check_iff charSigned C).mpr h
  simp only [decrypt, if_pos h2]
  rw [sizeOfChar_le _ _ h.2.1]

/-- What `decrypt` returns on the envelope made of a seed length, a seed and a payload. -/
theorem decrypt_envelope (charSigned : Bool) (md5 : Digest128) (S P K : List Byte)
    (hk : K.length ≤ MAXKEY) (hs : S.length ≤ BLOCKSIZE) :
    decrypt charSigned md5 (charOfSize S.length :: S ++ P) K =
      .ok (decodestream md5 P P.length
        (S ++ List.replicate (BLOCKSIZE - S.length) 0 ++ K) (K.length + BLOCKSIZE)) := by
  have hv := charOfSize_val S.length hs
  have hwf : (charOfSize S.length :: S ++ P) ≠ [] ∧
      ((charOfSize S.length :: S ++ P).headD 0).val ≤ BLOCKSIZE ∧
      ((charOfSize S.length :: S ++ P).headD 0).val + 1
        ≤ (charOfSize S.length :: S ++ P).length := by
    refine ⟨by simp, ?_, ?_⟩
    · simp only [List.cons_append, List.headD_cons, hv]; exact hs
    · simp only [List.cons_append, List.headD_cons, hv, List.length_cons, List.length_append]
      omega
  rw [decrypt_eq charSigned md5 _ K hwf]
  simp only [List.cons_append, List.headD_cons, hv, initblock_ok _ _ _ _ hk, List.drop_succ_cons,
    List.drop_zero, List.length_cons, List.length_append, List.drop_left]
  have hcount : S.length + P.length + 1 - (S.length + 1) = P.length := by omega
  rw [hcount]
  congr 1
  apply decodestream_congr md5 _ _ _ _ _ rfl
  rw [initblock_take K (S ++ P) _ S.length hs (by simp), List.take_left]
  apply (List.take_of_length_le _).symm
  simp
  omega

/-! ## The claims -/

/-- C1. Round trip: for every message `M` (empty or of any length), every key of at most
256 bytes and every seed of at most 16 bytes, and for every digest function, `crypt`
succeeds and `decrypt` of its result under the same key succeeds and returns exactly
`M`. -/
theorem C1_round_trip (charSigned : Bool) (md5 : Digest128) (tm M K S : List Byte)
    (hk : K.length ≤ 256) (hs : S.length ≤ 16) :
    ∃ C, crypt md5 tm M K (some S) = .ok C ∧ decrypt charSigned md5 C K = .ok M := by
  refine ⟨_, crypt_eq md5 tm M K S hk hs, ?_⟩
  rw [decrypt_envelope charSigned md5 S _ K hk hs]
  have hlen := codestream_length md5 (K.length + BLOCKSIZE) _ M
    (S ++ List.replicate (BLOCKSIZE - S.length) 0 ++ K) rfl
  rw [hlen, decodestream_codestream md5 _ _ M _ rfl]

theorem C1_round_trip_witness :
    ∃ C, crypt sampleDigest [] [104, 105] [1, 2, 3] (some [9]) = .ok C ∧
      decrypt true sampleDigest C [1, 2, 3] = .ok [104, 105] :=
  C1_round_trip true sampleDigest [] [104, 105] [1, 2, 3] [9] (by decide) (by decide)

/-- C2. Wire format: for every message, key of at most 256 bytes and seed of at most 16
bytes, the result of `crypt` is one byte holding the seed length, then the seed
unchanged, then a payload of exactly as many bytes as the message; so its length is
`len M + 1 + len S`, which is 16 for the key "secret", the seed `00 01 02 03` and the
message "hello world". -/
theorem C2_wire_format (md5 : Digest128) (tm M K S : List Byte)
    (hk : K.length ≤ 256) (hs : S.length ≤ 16) :
    (∃ (l : Byte) (P : List Byte), crypt md5 tm M K (some S) = .ok (l :: S ++ P) ∧
      l.val = S.length ∧ P.length = M.length) ∧
    (∃ C, crypt md5 tm M K (some S) = .ok C ∧ C.length = M.length + 1 + S.length) ∧
    (∃ C, crypt md5 tm [104, 101, 108, 108, 111, 32, 119, 111, 114, 108, 100]
        [115, 101, 99, 114, 101, 116] (some [0, 1, 2, 3]) = .ok C ∧ C.length = 16) := by
  have hlen : ∀ (M K S : List Byte), (codestream md5 M M.length
      (S ++ List.replicate (BLOCKSIZE - S.length) 0 ++ K) (K.length + BLOCKSIZE)).length
        = M.length := fun M K S => codestream_length md5 _ _ M _ rfl
  have hgen : ∀ (M K S : List Byte), K.length ≤ 256 → S.length ≤ 16 →
      ∃ C, crypt md5 tm M K (some S) = .ok C ∧ C.length = M.length + 1 + S.length := by
    intro M K S hk hs
    refine ⟨_, crypt_eq md5 tm M K S hk hs, ?_⟩
    simp only [List.length_cons, List.length_append, hlen]
    omega
  refine ⟨⟨_, _, crypt_eq md5 tm M K S hk hs, charOfSize_val _ hs, hlen M K S⟩,
    hgen M K S hk hs, ?_⟩
  obtain ⟨C, h1, h2⟩ := hgen [104, 101, 108, 108, 111, 32, 119, 111, 114, 108, 100]
    [115, 101, 99, 114, 101, 116] [0, 1, 2, 3] (by decide) (by decide)
  exact ⟨C, h1, h2⟩

theorem C2_wire_format_witness :
    ∃ C, crypt sampleDigest [] [7, 7, 7] [1] (some [5, 6]) = .ok C ∧ C.length = 3 + 1 + 2 :=
  (C2_wire_format sampleDigest [] [7, 7, 7] [1] [5, 6] (by decide) (by decide)).2.1

/-- C3. Malformed envelopes: for every key of at most 256 bytes and every byte string
`C`, `decrypt` fails with "invalid cyphered string" exactly when `C` is empty, or its
first byte (as a value `0 .. 255`) is above 16, or `C` is shorter than that byte plus
one; in every other case `decrypt` returns a plaintext. A failure carries no plaintext. -/
theorem C3_malformed_envelope (charSigned : Bool) (md5 : Digest128) (C K : List Byte)
    (hk : K.length ≤ 256) :
    (decrypt charSigned md5 C K = .error .invalidCypheredString ↔
      (C = [] ∨ 16 < (C.headD 0).val ∨ C.length < (C.headD 0).val + 1)) ∧
    (¬ (C = [] ∨ 16 < (C.headD 0).val ∨ C.length < (C.headD 0).val + 1) →
      ∃ P, decrypt charSigned md5 C K = .ok P) := by
  have hgood : ¬ (C = [] ∨ 16 < (C.headD 0).val ∨ C.length < (C.headD 0).val + 1) →
      ∃ P, decrypt charSigned md5 C K = .ok P := by
    intro hn
    have hwf : C ≠ [] ∧ (C.headD 0).val ≤ BLOCKSIZE ∧ (C.headD 0).val + 1 ≤ C.length := by
      simp only [BLOCKSIZE]
      refine ⟨fun h => hn (Or.inl h), ?_, ?_⟩
      · exact Nat.le_of_not_lt (fun h => hn (Or.inr (Or.inl h)))
      · exact Nat.le_of_not_lt (fun h => hn (Or.inr (Or.inr h)))
    rw [decrypt_eq charSigned md5 C K hwf, initblock_ok _ _ _ _ hk]
    exact ⟨_, rfl⟩
  refine ⟨⟨?_, ?_⟩, hgood⟩
  · intro herr
    by_contra hn
    obtain ⟨P, hP⟩ := hgood hn
    rw [hP] at herr
    cases herr
  · intro hbad
    apply decrypt_invalid
    simp only [BLOCKSIZE]
    rintro ⟨h1, h2, h3⟩
    rcases hbad with h | h | h
    · exact h1 h
    · omega
    · omega

theorem C3_malformed_envelope_witness :
    decrypt true sampleDigest [200, 1, 2] [1, 2, 3] = .error .invalidCypheredString ∧
    decrypt true sampleDigest [3, 1, 2] [1, 2, 3] = .error .invalidCypheredString ∧
    decrypt true sampleDigest [] [1, 2, 3] = .error .invalidCypheredString :=
  ⟨(C3_malformed_envelope true sampleDigest [200, 1, 2] [1, 2, 3] (by decide)).1.mpr
      (Or.inr (Or.inl (by decide))),
    (C3_malformed_envelope true sampleDigest [3, 1, 2] [1, 2, 3] (by decide)).1.mpr
      (Or.inr (Or.inr (by decide))),
    (C3_malformed_envelope true sampleDigest [] [1, 2, 3] (by decide)).1.mpr (Or.inl rfl)⟩

/-- C4. Key bound: for every message and every seed of at most 16 bytes, `crypt` fails
with "key too long" when the key has more than 256 bytes and succeeds when it has
exactly 256; `decrypt` of a well-formed envelope fails with "key too long" when the key
has more than 256 bytes. A failure carries no output. -/
theorem C4_key_bound (md5 : Digest128) (tm M K S : List Byte) (hs : S.length ≤ 16) :
    (256 < K.length → crypt md5 tm M K (some S) = .error .keyTooLong) ∧
    (K.length = 256 → ∃ C, crypt md5 tm M K (some S) = .ok C) ∧
    (∀ (charSigned : Bool) (C : List Byte),
      C ≠ [] → (C.headD 0).val ≤ 16 → (C.headD 0).val + 1 ≤ C.length → 256 < K.length →
        decrypt charSigned md5 C K = .error .keyTooLong) := by
  refine ⟨?_, ?_, ?_⟩
  · intro hk
    simp only [crypt, checkseed, BLOCKSIZE, Nat.not_lt.mpr hs, if_false,
      initblock_keyTooLong _ _ _ _ hk]
  · intro hk
    exact ⟨_, crypt_eq md5 tm M K S (by rw [hk]; decide) hs⟩
  · intro charSigned C h1 h2 h3 hk
    rw [decrypt_eq charSigned md5 C K ⟨h1, h2, h3⟩, initblock_keyTooLong _ _ _ _ hk]

theorem C4_key_bound_witness :
    crypt sampleDigest [] [1, 2] (List.replicate 257 0) (some [5]) = .error .keyTooLong :=
  (C4_key_bound sampleDigest [] [1, 2] (List.replicate 257 0) [5] (by decide)).1
    (by rw [List.length_replicate]; decide)

/-- C5. Seed bound: for every message and every key (of any length), `crypt` with a seed
of more than 16 bytes fails with "seed too long" and returns nothing; with a seed of
exactly 16 bytes and a key of at most 256 bytes it succeeds. -/
theorem C5_seed_bound (md5 : Digest128) (tm M K S : List Byte) :
    (16 < S.length → crypt md5 tm M K (some S) = .error .seedTooLong) ∧
    (S.length = 16 → K.length ≤ 256 → ∃ C, crypt md5 tm M K (some S) = .ok C) := by
  refine ⟨?_, ?_⟩
  · intro hs
    simp only [crypt, checkseed, BLOCKSIZE, hs, if_true]
  · intro hs hk
    exact ⟨_, crypt_eq md5 tm M K S hk (by rw [hs]; decide)⟩

/-- C6. Seed independence: for every non-empty message, every key of at most 256 bytes
and every two different seeds of at most 16 bytes, the two results of `crypt` differ
(the seed and its length are part of the result). -/
theorem C6_seed_independence (md5 : Digest128) (tm M K S1 S2 : List Byte) (_hM : M ≠ [])
    (hk : K.length ≤ 256) (h1 : S1.length ≤ 16) (h2 : S2.length ≤ 16) (hne : S1 ≠ S2) :
    crypt md5 tm M K (some S1) ≠ crypt md5 tm M K (some S2) := by
  rw [crypt_eq md5 tm M K S1 hk h1, crypt_eq md5 tm M K S2 hk h2]
  intro heq
  injection heq with heq
  injection heq with hc happ
  have hl : S1.length = S2.length := by
    rw [← charOfSize_val S1.length h1, ← charOfSize_val S2.length h2, hc]
  exact hne (List.append_inj_left happ hl)

theorem C6_seed_independence_witness :
    crypt sampleDigest [] [104] [1, 2, 3] (some []) ≠
      crypt sampleDigest [] [104] [1, 2, 3] (some [0]) :=
  C6_seed_independence sampleDigest [] [104] [1, 2, 3] [] [0] (by decide) (by decide)
    (by decide) (by decide) (by decide)

/-- C7. Exclusive-or is bytewise: for every two byte strings of the same length `ex_or`
succeeds, its result has that length, and byte `i` of the result is the exclusive-or of
byte `i` of the two arguments; so `ex_or "ABC" "XYZ"` is `19 1b 19` (hexadecimal). -/
theorem C7_xor_bytewise (a b : List Byte) (h : a.length = b.length) :
    (∃ r, ex_or a b = .ok r ∧ r.length = a.length ∧
      ∀ (i : Nat) (ha : i < a.length) (hb : i < b.length), ∃ hr : i < r.length,
        (r.get ⟨i, hr⟩).val = (a.get ⟨i, ha⟩).val ^^^ (b.get ⟨i, hb⟩).val) ∧
    ex_or [65, 66, 67] [88, 89, 90] = .ok [0x19, 0x1b, 0x19] := by
  refine ⟨⟨_, ex_or_eq a b h, ?_, ?_⟩, ?_⟩
  · simp [h]
  · intro i ha hb
    refine ⟨by simp [ha, hb], ?_⟩
    simp [bxor]
  · rfl

theorem C7_xor_bytewise_witness :
    ∃ r, ex_or [65, 66, 67] [88, 89, 90] = .ok r ∧ r.length = [65, 66, 67].length ∧
      ∀ (i : Nat) (ha : i < [65, 66, 67].length) (hb : i < [88, 89, 90].length),
        ∃ hr : i < r.length,
          (r.get ⟨i, hr⟩).val =
            (([65, 66, 67] : List Byte).get ⟨i, ha⟩).val ^^^
              (([88, 89, 90] : List Byte).get ⟨i, hb⟩).val :=
  (C7_xor_bytewise [65, 66, 67] [88, 89, 90] rfl).1

/-- C8. Exclusive-or symmetry: for every two byte strings `a` and `b` of the same
length, `ex_or a b` succeeds, and `ex_or` of that result with `b` succeeds and is `a`. -/
theorem C8_xor_symmetry (a b : List Byte) (h : a.length = b.length) :
    ∃ r, ex_or a b = .ok r ∧ ex_or r b = .ok a := by
  refine ⟨_, ex_or_eq a b h, ?_⟩
  rw [ex_or_eq _ b (by simp [h]), zipWith_bxor_cancel_right a b h]

theorem C8_xor_symmetry_witness :
    ∃ r, ex_or [65, 66, 67] [88, 89, 90] = .ok r ∧ ex_or r [88, 89, 90] = .ok [65, 66, 67] :=
  C8_xor_symmetry [65, 66, 67] [88, 89, 90] rfl

/-- C9. Exclusive-or length check: for every two byte strings, `ex_or` fails with
"lengths must be equal" exactly when the lengths differ, and returns a string exactly
when they are equal (so a failure carries no output). -/
theorem C9_xor_length_check (a b : List Byte) :
    (ex_or a b = .error .lengthsMustBeEqual ↔ a.length ≠ b.length) ∧
    ((∃ r, ex_or a b = .ok r) ↔ a.length = b.length) := by
  by_cases h : a.length = b.length
  · simp [ex_or_eq a b h, h]
  · simp [ex_or, h]

/-! ## The digest accumulator -/

/-- Enciphering the stream written by `decodestream`, from the same block, gives the
cyphertext back. -/
theorem codestream_decodestream (md5 : Digest128) (lblock : Nat) (n : Nat) :
    ∀ (cy block : List Byte), cy.length = n →
      codestream md5 (decodestream md5 cy cy.length block lblock) cy.length block lblock
        = cy := by
  induction n using Nat.strong_induction_on with
  | _ n ih =>
    intro cy block hn
    by_cases h : 0 < cy.length
    · have hlt : (cy.drop BLOCKSIZE).length < n := by
        simp [BLOCKSIZE]; omega
      have hc := (md5 (block.take lblock)).property
      have hlen := decodestream_length md5 lblock _ cy block rfl
      have hpos : 0 < (decodestream md5 cy cy.length block lblock).length := by
        rw [hlen]; exact h
      have hstep := codestream_step md5 (decodestream md5 cy cy.length block lblock) block
        lblock hpos
      rw [hlen] at hstep
      rw [hstep]
      clear hstep hpos hlen
      rw [decodestream_step md5 cy block lblock h]
      generalize hout : List.zipWith bxor (md5 (block.take lblock)).val cy = out
      have houtlen : out.length = min BLOCKSIZE cy.length := by
        rw [← hout, List.length_zipWith, hc]
      have htake : cy.take (min BLOCKSIZE cy.length) = cy.take BLOCKSIZE := by
        by_cases hb : BLOCKSIZE ≤ cy.length
        · rw [Nat.min_eq_left hb]
        · rw [Nat.min_eq_right (by omega), List.take_of_length_le (Nat.le_refl _),
            List.take_of_length_le (by omega)]
      rw [htake]
      generalize hblk : cy.take BLOCKSIZE ++ block.drop (min BLOCKSIZE cy.length) = blk
      have hrest := decodestream_length md5 lblock _ (cy.drop BLOCKSIZE) blk rfl
      have hih := ih _ hlt (cy.drop BLOCKSIZE) blk rfl
      generalize hr : decodestream md5 (cy.drop BLOCKSIZE) (cy.drop BLOCKSIZE).length blk
        lblock = rest at hrest hih
      have f1 : List.zipWith bxor (md5 (block.take lblock)).val (out ++ rest)
          = cy.take BLOCKSIZE := by
        by_cases hb : BLOCKSIZE ≤ cy.length
        · rw [zipWith_append_right_of_le _ _ _ (by rw [hc, houtlen]; omega), ← hout,
            zipWith_bxor_cancel_left, hc]
        · have hnil : rest = [] := List.length_eq_zero.mp (by
            rw [hrest, List.length_drop]; omega)
          rw [hnil, List.append_nil, ← hout, zipWith_bxor_cancel_left, hc]
      have f2 : (out ++ rest).drop BLOCKSIZE = rest := by
        by_cases hb : BLOCKSIZE ≤ cy.length
        · exact List.drop_left' (by rw [houtlen]; omega)
        · have hnil : rest = [] := List.length_eq_zero.mp (by
            rw [hrest, List.length_drop]; omega)
          rw [hnil, List.append_nil]
          exact List.drop_of_length_le (by rw [houtlen]; omega)
      rw [f1, f2, hblk, hrest, hih, List.take_append_drop]
    · have h0 : cy = [] := List.length_eq_zero.mp (by omega)
      subst h0
      simp [codestream_nil, decodestream_nil]

theorem zipWith_bxor_leading : ∀ (code M1 M2 : List Byte),
    List.zipWith bxor code M1 <+: List.zipWith bxor code (M1 ++ M2) := by
  intro code
  induction code with
  | nil => intro M1 M2; simp
  | cons c cs ih =>
    intro M1 M2
    cases M1 with
    | nil => simp
    | cons m ms =>
      simp only [List.cons_append, List.zipWith_cons_cons]
      exact (List.prefix_cons_inj _).mpr (ih ms M2)

/-- The stream of a message is the beginning of the stream of any longer message that
starts with it, from the same block. -/
theorem codestream_leading (md5 : Digest128) (lblock : Nat) (n : Nat) :
    ∀ (M1 M2 block : List Byte), M1.length = n →
      codestream md5 M1 M1.length block lblock <+:
        codestream md5 (M1 ++ M2) (M1 ++ M2).length block lblock := by
  induction n using Nat.strong_induction_on with
  | _ n ih =>
    intro M1 M2 block hn
    by_cases h : 0 < M1.length
    · have hlt : (M1.drop BLOCKSIZE).length < n := by
        simp [BLOCKSIZE]; omega
      have hc := (md5 (block.take lblock)).property
      have h12 : 0 < (M1 ++ M2).length := by
        rw [List.length_append]; omega
      rw [codestream_step md5 M1 block lblock h, codestream_step md5 (M1 ++ M2) block lblock h12]
      by_cases hb : BLOCKSIZE ≤ M1.length
      · have e1 : List.zipWith bxor (md5 (block.take lblock)).val (M1 ++ M2)
            = List.zipWith bxor (md5 (block.take lblock)).val M1 :=
          zipWith_append_right_of_le _ _ _ (by rw [hc]; exact hb)
        have e2 : (M1 ++ M2).drop BLOCKSIZE = M1.drop BLOCKSIZE ++ M2 :=
          List.drop_append_of_le_length hb
        have e3 : min BLOCKSIZE (M1 ++ M2).length = min BLOCKSIZE M1.length := by
          rw [List.length_append]; omega
        rw [e1, e2, e3]
        exact (List.prefix_append_right_inj _).mpr (ih _ hlt _ M2 _ rfl)
      · have hnil : M1.drop BLOCKSIZE = [] := List.drop_of_length_le (by omega)
        rw [hnil]
        simp only [List.length_nil, codestream_nil, List.append_nil]
        exact (zipWith_bxor_leading _ M1 M2).trans (List.prefix_append _ _)
    · have h0 : M1 = [] := List.length_eq_zero.mp (by omega)
      subst h0
      simp [codestream_nil]

/-- A cyphertext that passes the check of `decrypt` is its first byte, the seed of that
many bytes, and the payload. -/
theorem envelope_split (C : List Byte)
    (h : C ≠ [] ∧ (C.headD 0).val ≤ BLOCKSIZE ∧ (C.headD 0).val + 1 ≤ C.length) :
    C = charOfSize ((C.drop 1).take (C.headD 0).val).length ::
          (C.drop 1).take (C.headD 0).val ++ C.drop ((C.headD 0).val + 1) ∧
      ((C.drop 1).take (C.headD 0).val).length = (C.headD 0).val := by
  cases C with
  | nil => exact absurd rfl h.1
  | cons c T =>
    have h3 : c.val ≤ T.length := by
      have := h.2.2
      simp only [List.headD_cons, List.length_cons] at this
      omega
    have hl : (T.take c.val).length = c.val := by
      rw [List.length_take]; omega
    have hc : charOfSize c.val = c := by
      apply Fin.ext
      have := c.isLt
      simp only [charOfSize]
      omega
    simp only [List.headD_cons, List.drop_succ_cons, List.drop_zero, hl, hc]
    exact ⟨by rw [List.cons_append, List.take_append_drop], trivial⟩

/-! ## The claims on the cipher, continued -/

/-- C12. Determinism with an explicit seed: when the seed is supplied, the result of
`crypt` is the same for any two values of the clock that the path without a seed reads;
it is a function of the message, the key and the seed only. -/
theorem C12_explicit_seed_deterministic (md5 : Digest128) (tm1 tm2 M K S : List Byte) :
    crypt md5 tm1 M K (some S) = crypt md5 tm2 M K (some S) := by
  simp only [crypt, checkseed]

/-- C17. Default seed: without a seed, `crypt` returns what it returns with the bytes `T`
of the `time_t` value as the seed; `T` has `sizeof (time_t)` bytes, which is at most 16,
so the call does not fail with "seed too long", and with a key of at most 256 bytes the
first byte of the result is the length of `T`, followed by `T`. -/
theorem C17_default_seed (md5 : Digest128) (tm M K : List Byte)
    (ht : tm.length = SIZEOF_TIME_T) :
    crypt md5 tm M K none = crypt md5 tm M K (some tm) ∧
    tm.length ≤ 16 ∧
    crypt md5 tm M K none ≠ .error .seedTooLong ∧
    (K.length ≤ 256 → ∃ (l : Byte) (P : List Byte),
      crypt md5 tm M K none = .ok (l :: tm ++ P) ∧ l.val = tm.length) := by
  have hs : tm.length ≤ 16 := by rw [ht]; decide
  have hnone : crypt md5 tm M K none = crypt md5 tm M K (some tm) := by
    simp only [crypt, checkseed]
  refine ⟨hnone, hs, ?_, ?_⟩
  · rw [hnone]
    by_cases hk : K.length ≤ 256
    · rw [crypt_eq md5 tm M K tm hk hs]
      intro h; cases h
    · have hk2 : MAXKEY < K.length := Nat.lt_of_not_le hk
      simp only [crypt, checkseed, BLOCKSIZE, Nat.not_lt.mpr hs, if_false,
        initblock_keyTooLong _ _ _ _ hk2]
      intro h; cases h
  · intro hk
    rw [hnone]
    exact ⟨_, _, crypt_eq md5 tm M K tm hk hs, charOfSize_val _ hs⟩

theorem C17_default_seed_witness :
    crypt sampleDigest [1, 2, 3, 4, 5, 6, 7, 8] [104, 105] [9] none =
      crypt sampleDigest [1, 2, 3, 4, 5, 6, 7, 8] [104, 105] [9]
        (some [1, 2, 3, 4, 5, 6, 7, 8]) :=
  (C17_default_seed sampleDigest [1, 2, 3, 4, 5, 6, 7, 8] [104, 105] [9] rfl).1

/-- C18. Reverse round trip: for every key of at most 256 bytes and every well-formed
cyphertext `C` (not empty, first byte `n` at most 16, at least `n + 1` bytes), `decrypt`
returns a message `M` of the length of the payload, and `crypt` of `M` with the seed
embedded in `C` returns `C`; and `crypt` with that key and seed never sends two
messages to the same result. So enciphering is a bijection between messages and
payloads of the same length. -/
theorem C18_reverse_round_trip (charSigned : Bool) (md5 : Digest128) (tm K C : List Byte)
    (hk : K.length ≤ 256) (h1 : C ≠ []) (h2 : (C.headD 0).val ≤ 16)
    (h3 : (C.headD 0).val + 1 ≤ C.length) :
    (∃ M, decrypt charSigned md5 C K = .ok M ∧
      M.length + ((C.headD 0).val + 1) = C.length ∧
      crypt md5 tm M K (some ((C.drop 1).take (C.headD 0).val)) = .ok C) ∧
    (∀ M1 M2 : List Byte,
      crypt md5 tm M1 K (some ((C.drop 1).take (C.headD 0).val)) =
        crypt md5 tm M2 K (some ((C.drop 1).take (C.headD 0).val)) → M1 = M2) := by
  obtain ⟨hC, hS⟩ := envelope_split C ⟨h1, h2, h3⟩
  have hs : ((C.drop 1).take (C.headD 0).val).length ≤ 16 := by rw [hS]; exact h2
  generalize (C.drop 1).take (C.headD 0).val = S at hC hS hs ⊢
  constructor
  · have hlenP : (C.drop ((C.headD 0).val + 1)).length + ((C.headD 0).val + 1) = C.length := by
      rw [List.length_drop]; omega
    generalize C.drop ((C.headD 0).val + 1) = P at hC hlenP
    have hdec := decrypt_envelope charSigned md5 S P K hk hs
    rw [← hC] at hdec
    refine ⟨_, hdec, ?_, ?_⟩
    · rw [decodestream_length md5 _ _ P _ rfl]; exact hlenP
    · rw [crypt_eq md5 tm _ K S hk hs, decodestream_length md5 _ _ P _ rfl,
        codestream_decodestream md5 _ _ P _ rfl, ← hC]
  · intro M1 M2 heq
    rw [crypt_eq md5 tm M1 K S hk hs, crypt_eq md5 tm M2 K S hk hs] at heq
    injection heq with heq
    injection heq with _ happ
    have hcs := List.append_cancel_left happ
    have hl1 := codestream_length md5 (K.length + BLOCKSIZE) _ M1
      (S ++ List.replicate (BLOCKSIZE - S.length) 0 ++ K) rfl
    have hl2 := codestream_length md5 (K.length + BLOCKSIZE) _ M2
      (S ++ List.replicate (BLOCKSIZE - S.length) 0 ++ K) rfl
    have hlen : M1.length = M2.length := by rw [← hl1, ← hl2, hcs]
    have r1 := decodestream_codestream md5 (K.length + BLOCKSIZE) _ M1
      (S ++ List.replicate (BLOCKSIZE - S.length) 0 ++ K) rfl
    have r2 := decodestream_codestream md5 (K.length + BLOCKSIZE) _ M2
      (S ++ List.replicate (BLOCKSIZE - S.length) 0 ++ K) rfl
    rw [← r1, ← r2, hcs, hlen]

theorem C18_reverse_round_trip_witness :
    ∃ M, decrypt false sampleDigest [2, 7, 8, 200, 201, 202] [1, 2, 3] = .ok M ∧
      M.length + (2 + 1) = 6 ∧
      crypt sampleDigest [] M [1, 2, 3] (some [7, 8]) = .ok [2, 7, 8, 200, 201, 202] :=
  (C18_reverse_round_trip false sampleDigest [] [1, 2, 3] [2, 7, 8, 200, 201, 202]
    (by decide) (by decide) (by decide) (by decide)).1

/-- C19. Prefix preservation: for every key of at most 256 bytes, seed of at most 16
bytes and messages `M1` (of any length) and `M2`, the result of `crypt` on `M1` is the
beginning of the result of `crypt` on `M1 ++ M2`. -/
theorem C19_prefix_preservation (md5 : Digest128) (tm K S M1 M2 : List Byte)
    (hk : K.length ≤ 256) (hs : S.length ≤ 16) :
    ∃ C1 C2, crypt md5 tm M1 K (some S) = .ok C1 ∧
      crypt md5 tm (M1 ++ M2) K (some S) = .ok C2 ∧ C1 <+: C2 := by
  refine ⟨_, _, crypt_eq md5 tm M1 K S hk hs, crypt_eq md5 tm (M1 ++ M2) K S hk hs, ?_⟩
  have h := codestream_leading md5 (K.length + BLOCKSIZE) _ M1 M2
    (S ++ List.replicate (BLOCKSIZE - S.length) 0 ++ K) rfl
  have h2 := (List.prefix_append_right_inj (charOfSize S.length :: S)).mpr h
  simpa using h2

theorem C19_prefix_preservation_witness :
    ∃ C1 C2, crypt sampleDigest [] [104, 105, 106] [1, 2, 3] (some [9]) = .ok C1 ∧
      crypt sampleDigest [] ([104, 105, 106] ++ [107, 108]) [1, 2, 3] (some [9]) = .ok C2 ∧
      C1 <+: C2 :=
  C19_prefix_preservation sampleDigest [] [1, 2, 3] [9] [104, 105, 106] [107, 108]
    (by decide) (by decide)

/-- C20. Zero-padded seeds share a keystream: for every message, key of at most 256
bytes and two seeds of at most 16 bytes that are equal once padded with zero bytes to 16
bytes (such as the empty seed and the seed of one zero byte), the two results of `crypt`
have the same payload after their headers; they differ only in the headers. -/
theorem C20_padded_seeds_share_keystream (md5 : Digest128) (tm M K S1 S2 : List Byte)
    (hk : K.length ≤ 256) (h1 : S1.length ≤ 16) (h2 : S2.length ≤ 16)
    (hpad : zeropad16 S1 = zeropad16 S2) :
    (∃ P, crypt md5 tm M K (some S1) = .ok (charOfSize S1.length :: S1 ++ P) ∧
      crypt md5 tm M K (some S2) = .ok (charOfSize S2.length :: S2 ++ P) ∧
      P.length = M.length) ∧
    zeropad16 [] = zeropad16 [0] := by
  refine ⟨⟨_, crypt_eq md5 tm M K S1 hk h1, ?_, codestream_length md5 _ _ M _ rfl⟩, rfl⟩
  rw [crypt_eq md5 tm M K S2 hk h2]
  simp only [zeropad16] at hpad
  rw [hpad]

theorem C20_padded_seeds_share_keystream_witness :
    ∃ P, crypt sampleDigest [] [104, 105] [1, 2, 3] (some []) =
        .ok (charOfSize ([] : List Byte).length :: [] ++ P) ∧
      crypt sampleDigest [] [104, 105] [1, 2, 3] (some [0]) =
        .ok (charOfSize ([0] : List Byte).length :: [0] ++ P) ∧
      P.length = ([104, 105] : List Byte).length :=
  (C20_padded_seeds_share_keystream sampleDigest [] [104, 105] [1, 2, 3] [] [0]
    (by decide) (by decide) (by decide) rfl).1

/-! ## The streams chunk by chunk -/

theorem bxor_comm (a b : Byte) : bxor a b = bxor b a := by
  apply Fin.ext
  simp [bxor, Nat.xor_comm]

theorem zipWith_bxor_take_right : ∀ (code msg : List Byte),
    List.zipWith bxor code msg = List.zipWith bxor code (msg.take code.length) := by
  intro code
  induction code with
  | nil => intro msg; simp
  | cons c cs ih =>
    intro msg
    cases msg with
    | nil => simp
    | cons m ms => simp only [List.zipWith_cons_cons, List.length_cons, List.take_succ_cons,
        ← ih ms]

theorem zipWith_bxor_swap_take : ∀ (code m : List Byte),
    List.zipWith bxor code m = List.zipWith bxor m (code.take m.length) := by
  intro code
  induction code with
  | nil => intro m; simp
  | cons c cs ih =>
    intro m
    cases m with
    | nil => simp
    | cons x xs => simp only [List.zipWith_cons_cons, List.length_cons, List.take_succ_cons,
        ← ih xs, bxor_comm c x]

theorem chunk_zero (l : List Byte) : chunk 0 l = l.take BLOCKSIZE := by
  simp [chunk]

theorem chunk_succ_drop (i : Nat) (l : List Byte) :
    chunk (i + 1) l = chunk i (l.drop BLOCKSIZE) := by
  simp only [chunk, List.drop_drop]
  rw [Nat.mul_succ, Nat.add_comm]

theorem chunk_succ_append (i : Nat) (out l : List Byte) (h : out.length = BLOCKSIZE) :
    chunk (i + 1) (out ++ l) = chunk i l := by
  rw [chunk_succ_drop, List.drop_left' h]

theorem chunk_length_le (i : Nat) (l : List Byte) : (chunk i l).length ≤ BLOCKSIZE := by
  simp only [chunk, List.length_take]
  omega

/-- One full turn of `codestream` on a block made of 16 bytes and the key. -/
theorem codestream_shift (md5 : Digest128) (K prev msg : List Byte)
    (hp : prev.length = BLOCKSIZE) (hm : BLOCKSIZE ≤ msg.length) :
    codestream md5 msg msg.length (prev ++ K) (K.length + BLOCKSIZE) =
      List.zipWith bxor (md5 (prev ++ K)).val msg ++
        codestream md5 (msg.drop BLOCKSIZE) (msg.drop BLOCKSIZE).length
          (List.zipWith bxor (md5 (prev ++ K)).val msg ++ K) (K.length + BLOCKSIZE) := by
  have h0 : 0 < msg.length := by simp only [BLOCKSIZE] at hm; omega
  have ht : (prev ++ K).take (K.length + BLOCKSIZE) = prev ++ K :=
    List.take_of_length_le (by rw [List.length_append]; omega)
  rw [codestream_step md5 msg (prev ++ K) _ h0, ht, Nat.min_eq_left hm, List.drop_left' hp]

/-- One full turn of `decodestream` on a block made of 16 bytes and the key. -/
theorem decodestream_shift (md5 : Digest128) (K prev cy : List Byte)
    (hp : prev.length = BLOCKSIZE) (hm : BLOCKSIZE ≤ cy.length) :
    decodestream md5 cy cy.length (prev ++ K) (K.length + BLOCKSIZE) =
      List.zipWith bxor (md5 (prev ++ K)).val cy ++
        decodestream md5 (cy.drop BLOCKSIZE) (cy.drop BLOCKSIZE).length
          (cy.take BLOCKSIZE ++ K) (K.length + BLOCKSIZE) := by
  have h0 : 0 < cy.length := by simp only [BLOCKSIZE] at hm; omega
  have ht : (prev ++ K).take (K.length + BLOCKSIZE) = prev ++ K :=
    List.take_of_length_le (by rw [List.length_append]; omega)
  rw [decodestream_step md5 cy (prev ++ K) _ h0, ht, Nat.min_eq_left hm, List.drop_left' hp]

theorem codestream_chunk_zero (md5 : Digest128) (K prev msg : List Byte)
    (hp : prev.length = BLOCKSIZE) (h0 : 0 < msg.length) :
    chunk 0 (codestream md5 msg msg.length (prev ++ K) (K.length + BLOCKSIZE)) =
      List.zipWith bxor (md5 (prev ++ K)).val (chunk 0 msg) := by
  have hc := (md5 (prev ++ K)).property
  have hz : List.zipWith bxor (md5 (prev ++ K)).val msg =
      List.zipWith bxor (md5 (prev ++ K)).val (chunk 0 msg) := by
    have h := zipWith_bxor_take_right (md5 (prev ++ K)).val msg
    rw [hc] at h
    rw [chunk_zero]; exact h
  rw [chunk_zero]
  by_cases hm : BLOCKSIZE ≤ msg.length
  · rw [codestream_shift md5 K prev msg hp hm, ← hz]
    exact List.take_left' (by rw [List.length_zipWith, hc]; omega)
  · have ht : (prev ++ K).take (K.length + BLOCKSIZE) = prev ++ K :=
      List.take_of_length_le (by rw [List.length_append]; omega)
    have hnil : msg.drop BLOCKSIZE = [] := List.drop_of_length_le (by omega)
    rw [codestream_step md5 msg (prev ++ K) _ h0, ht, hnil]
    simp only [List.length_nil, codestream_nil, List.append_nil]
    rw [← hz]
    exact List.take_of_length_le (by rw [List.length_zipWith, hc]; omega)

theorem decodestream_chunk_zero (md5 : Digest128) (K prev cy : List Byte)
    (hp : prev.length = BLOCKSIZE) (h0 : 0 < cy.length) :
    chunk 0 (decodestream md5 cy cy.length (prev ++ K) (K.length + BLOCKSIZE)) =
      List.zipWith bxor (md5 (prev ++ K)).val (chunk 0 cy) := by
  have hc := (md5 (prev ++ K)).property
  have hz : List.zipWith bxor (md5 (prev ++ K)).val cy =
      List.zipWith bxor (md5 (prev ++ K)).val (chunk 0 cy) := by
    have h := zipWith_bxor_take_right (md5 (prev ++ K)).val cy
    rw [hc] at h
    rw [chunk_zero]; exact h
  rw [chunk_zero]
  by_cases hm : BLOCKSIZE ≤ cy.length
  · rw [decodestream_shift md5 K prev cy hp hm, ← hz]
    exact List.take_left' (by rw [List.length_zipWith, hc]; omega)
  · have ht : (prev ++ K).take (K.length + BLOCKSIZE) = prev ++ K :=
      List.take_of_length_le (by rw [List.length_append]; omega)
    have hnil : cy.drop BLOCKSIZE = [] := List.drop_of_length_le (by omega)
    rw [decodestream_step md5 cy (prev ++ K) _ h0, ht, hnil]
    simp only [List.length_nil, decodestream_nil, List.append_nil]
    rw [← hz]
    exact List.take_of_length_le (by rw [List.length_zipWith, hc]; omega)

/-- Every chunk of the stream of `codestream` after the first is the message chunk xored
with the digest of the chunk written just before, followed by the key. -/
theorem codestream_chunk_succ (md5 : Digest128) (K : List Byte) (i : Nat) :
    ∀ (prev msg : List Byte), prev.length = BLOCKSIZE → BLOCKSIZE * (i + 1) < msg.length →
      chunk (i + 1) (codestream md5 msg msg.length (prev ++ K) (K.length + BLOCKSIZE)) =
        List.zipWith bxor
          (md5 (chunk i (codestream md5 msg msg.length (prev ++ K) (K.length + BLOCKSIZE))
            ++ K)).val (chunk (i + 1) msg) := by
  induction i with
  | zero =>
    intro prev msg hp hi
    have hm : BLOCKSIZE ≤ msg.length := by simp only [BLOCKSIZE] at hi ⊢; omega
    have hc := (md5 (prev ++ K)).property
    have hol : (List.zipWith bxor (md5 (prev ++ K)).val msg).length = BLOCKSIZE := by
      rw [List.length_zipWith, hc]; omega
    have hd : 0 < (msg.drop BLOCKSIZE).length := by
      rw [List.length_drop]; omega
    rw [codestream_shift md5 K prev msg hp hm, chunk_succ_append _ _ _ hol, chunk_succ_drop,
      codestream_chunk_zero md5 K _ _ hol hd, chunk_zero (_ ++ _), List.take_left' hol]
  | succ j ih =>
    intro prev msg hp hi
    have hm : BLOCKSIZE ≤ msg.length := by simp only [BLOCKSIZE] at hi ⊢; omega
    have hc := (md5 (prev ++ K)).property
    have hol : (List.zipWith bxor (md5 (prev ++ K)).val msg).length = BLOCKSIZE := by
      rw [List.length_zipWith, hc]; omega
    have hd : BLOCKSIZE * (j + 1) < (msg.drop BLOCKSIZE).length := by
      rw [List.length_drop]; simp only [BLOCKSIZE] at hi ⊢; omega
    rw [codestream_shift md5 K prev msg hp hm, chunk_succ_append _ _ _ hol,
      chunk_succ_append _ _ _ hol, chunk_succ_drop (j + 1) msg]
    exact ih _ _ hol hd

/-- Every chunk of the stream of `decodestream` after the first is the cyphertext chunk
xored with the digest of the cyphertext chunk before it, followed by the key. -/
theorem decodestream_chunk_succ (md5 : Digest128) (K : List Byte) (i : Nat) :
    ∀ (prev cy : List Byte), prev.length = BLOCKSIZE → BLOCKSIZE * (i + 1) < cy.length →
      chunk (i + 1) (decodestream md5 cy cy.length (prev ++ K) (K.length + BLOCKSIZE)) =
        List.zipWith bxor (md5 (chunk i cy ++ K)).val (chunk (i + 1) cy) := by
  induction i with
  | zero =>
    intro prev cy hp hi
    have hm : BLOCKSIZE ≤ cy.length := by simp only [BLOCKSIZE] at hi ⊢; omega
    have hc := (md5 (prev ++ K)).property
    have hol : (List.zipWith bxor (md5 (prev ++ K)).val cy).length = BLOCKSIZE := by
      rw [List.length_zipWith, hc]; omega
    have htl : (cy.take BLOCKSIZE).length = BLOCKSIZE := by
      rw [List.length_take]; omega
    have hd : 0 < (cy.drop BLOCKSIZE).length := by
      rw [List.length_drop]; omega
    rw [decodestream_shift md5 K prev cy hp hm, chunk_succ_append _ _ _ hol, chunk_succ_drop,
      decodestream_chunk_zero md5 K _ _ htl hd, chunk_zero cy]
  | succ j ih =>
    intro prev cy hp hi
    have hm : BLOCKSIZE ≤ cy.length := by simp only [BLOCKSIZE] at hi ⊢; omega
    have hc := (md5 (prev ++ K)).property
    have hol : (List.zipWith bxor (md5 (prev ++ K)).val cy).length = BLOCKSIZE := by
      rw [List.length_zipWith, hc]; omega
    have htl : (cy.take BLOCKSIZE).length = BLOCKSIZE := by
      rw [List.length_take]; omega
    have hd : BLOCKSIZE * (j + 1) < (cy.drop BLOCKSIZE).length := by
      rw [List.length_drop]; simp only [BLOCKSIZE] at hi ⊢; omega
    rw [decodestream_shift md5 K prev cy hp hm, chunk_succ_append _ _ _ hol,
      chunk_succ_drop (j + 1) cy, chunk_succ_drop j cy]
    exact ih _ _ htl hd

theorem zeropad16_length (S : List Byte) (hs : S.length ≤ BLOCKSIZE) :
    (zeropad16 S).length = BLOCKSIZE := by
  simp only [zeropad16, List.length_append, List.length_replicate]
  omega

/-- C14. Encryption is the stated cipher-feedback construction: for every message, key
of at most 256 bytes and seed of at most 16 bytes, with the message and the payload `P`
of the result (what follows the `1 + len S` header bytes) cut in consecutive 16-byte
chunks, chunk 0 of `P` is chunk 0 of the message xored with the first bytes of the
digest of the zero-padded seed followed by the key, and every later chunk `i` of `P` is
chunk `i` of the message xored with the first bytes of the digest of chunk `i - 1` of
`P` followed by the key. -/
theorem C14_cipher_feedback_encryption (md5 : Digest128) (tm M K S : List Byte)
    (hk : K.length ≤ 256) (hs : S.length ≤ 16) :
    ∃ P, crypt md5 tm M K (some S) = .ok (charOfSize S.length :: S ++ P) ∧
      P.length = M.length ∧
      (0 < M.length → chunk 0 P =
        List.zipWith bxor (chunk 0 M)
          ((md5 (zeropad16 S ++ K)).val.take (chunk 0 M).length)) ∧
      (∀ i, 1 ≤ i → 16 * i < M.length → chunk i P =
        List.zipWith bxor (chunk i M)
          ((md5 (chunk (i - 1) P ++ K)).val.take (chunk i M).length)) := by
  have hp := zeropad16_length S hs
  refine ⟨_, crypt_eq md5 tm M K S hk hs, codestream_length md5 _ _ M _ rfl, ?_, ?_⟩
  · intro h0
    rw [← zipWith_bxor_swap_take]
    exact codestream_chunk_zero md5 K (zeropad16 S) M hp h0
  · intro i hi hlt
    obtain ⟨j, rfl⟩ : ∃ j, i = j + 1 := ⟨i - 1, by omega⟩
    rw [← zipWith_bxor_swap_take, Nat.add_sub_cancel]
    exact codestream_chunk_succ md5 K j (zeropad16 S) M hp hlt

theorem C14_cipher_feedback_encryption_witness :
    ∃ P, crypt sampleDigest [] (List.replicate 20 7) [1, 2, 3] (some [9]) =
        .ok (charOfSize ([9] : List Byte).length :: [9] ++ P) ∧
      P.length = (List.replicate 20 (7 : Byte)).length ∧
      (0 < (List.replicate 20 (7 : Byte)).length → chunk 0 P =
        List.zipWith bxor (chunk 0 (List.replicate 20 7))
          ((sampleDigest (zeropad16 [9] ++ [1, 2, 3])).val.take
            (chunk 0 (List.replicate 20 7)).length)) ∧
      (∀ i, 1 ≤ i → 16 * i < (List.replicate 20 (7 : Byte)).length → chunk i P =
        List.zipWith bxor (chunk i (List.replicate 20 7))
          ((sampleDigest (chunk (i - 1) P ++ [1, 2, 3])).val.take
            (chunk i (List.replicate 20 7)).length)) :=
  C14_cipher_feedback_encryption sampleDigest [] (List.replicate 20 7) [1, 2, 3] [9]
    (by decide) (by decide)

/-- C15. Decryption chains on the cyphertext, not on the plaintext: for every
well-formed cyphertext, made of the length byte of a seed `S` of at most 16 bytes, the
seed and a payload `P`, and every key of at most 256 bytes, `decrypt` returns a
plaintext of the length of `P` whose chunk 0 is chunk 0 of `P` xored with the first
bytes of the digest of the zero-padded seed followed by the key, and whose every later
chunk `i` is chunk `i` of `P` xored with the first bytes of the digest of chunk `i - 1`
of `P` followed by the key; so chunk `i` of the plaintext is given by the key and chunks
`i` and `i - 1` of the payload alone. -/
theorem C15_decryption_chains_on_cyphertext (charSigned : Bool) (md5 : Digest128)
    (K S P : List Byte) (hk : K.length ≤ 256) (hs : S.length ≤ 16) :
    ∃ D, decrypt charSigned md5 (charOfSize S.length :: S ++ P) K = .ok D ∧
      D.length = P.length ∧
      (0 < P.length → chunk 0 D =
        List.zipWith bxor (chunk 0 P)
          ((md5 (zeropad16 S ++ K)).val.take (chunk 0 P).length)) ∧
      (∀ i, 1 ≤ i → 16 * i < P.length → chunk i D =
        List.zipWith bxor (chunk i P)
          ((md5 (chunk (i - 1) P ++ K)).val.take (chunk i P).length)) := by
  have hp := zeropad16_length S hs
  refine ⟨_, decrypt_envelope charSigned md5 S P K hk hs,
    decodestream_length md5 _ _ P _ rfl, ?_, ?_⟩
  · intro h0
    rw [← zipWith_bxor_swap_take]
    exact decodestream_chunk_zero md5 K (zeropad16 S) P hp h0
  · intro i hi hlt
    obtain ⟨j, rfl⟩ : ∃ j, i = j + 1 := ⟨i - 1, by omega⟩
    rw [← zipWith_bxor_swap_take, Nat.add_sub_cancel]
    exact decodestream_chunk_succ md5 K j (zeropad16 S) P hp hlt

theorem C15_decryption_chains_on_cyphertext_witness :
    ∃ D, decrypt true sampleDigest
        (charOfSize ([9] : List Byte).length :: [9] ++ List.replicate 20 7) [1, 2, 3] = .ok D ∧
      D.length = (List.replicate 20 (7 : Byte)).length ∧
      (0 < (List.replicate 20 (7 : Byte)).length → chunk 0 D =
        List.zipWith bxor (chunk 0 (List.replicate 20 7))
          ((sampleDigest (zeropad16 [9] ++ [1, 2, 3])).val.take
            (chunk 0 (List.replicate 20 7)).length)) ∧
      (∀ i, 1 ≤ i → 16 * i < (List.replicate 20 (7 : Byte)).length → chunk i D =
        List.zipWith bxor (chunk i (List.replicate 20 7))
          ((sampleDigest (chunk (i - 1) (List.replicate 20 7) ++ [1, 2, 3])).val.take
            (chunk i (List.replicate 20 7)).length)) :=
  C15_decryption_chains_on_cyphertext true sampleDigest [1, 2, 3] [9] (List.replicate 20 7)
    (by decide) (by decide)

/-! ## The block through the loops -/

/-- The whole block after `initblock`: the zero-padded seed, the key, and the rest of
the array untouched. -/
theorem initblock_layout (K S blk : List Byte) (hs : S.length ≤ BLOCKSIZE) :
    memcpy (memcpy (memset blk 0 BLOCKSIZE) 0 S S.length) BLOCKSIZE K K.length =
      zeropad16 S ++ K ++ blk.drop (BLOCKSIZE + K.length) := by
  have h1 : memcpy (memset blk 0 BLOCKSIZE) 0 S S.length =
      zeropad16 S ++ blk.drop BLOCKSIZE := by
    simp only [memcpy, memset, zeropad16, List.take_zero, List.nil_append, Nat.zero_add,
      List.take_of_length_le (Nat.le_refl S.length)]
    rw [List.drop_append_eq_append_drop]
    simp [List.drop_replicate, Nat.sub_eq_zero_of_le hs]
  have hlen := zeropad16_length S hs
  rw [h1]
  simp only [memcpy, List.take_of_length_le (Nat.le_refl K.length)]
  rw [List.take_left' hlen, List.drop_append_eq_append_drop,
    List.drop_of_length_le (by rw [hlen]; omega), hlen, List.drop_drop, List.nil_append,
    Nat.add_sub_cancel_left]

theorem front_replace (out block : List Byte) (k : Nat) (hk : out.length = k)
    (hk16 : k ≤ BLOCKSIZE) (hb : BLOCKSIZE ≤ block.length) :
    (out ++ block.drop k).drop BLOCKSIZE = block.drop BLOCKSIZE ∧
      (out ++ block.drop k).length = block.length := by
  constructor
  · rw [List.drop_append_eq_append_drop, List.drop_of_length_le (by omega), List.drop_drop,
      List.nil_append, hk, Nat.add_sub_cancel' hk16]
  · rw [List.length_append, List.length_drop]; omega

theorem codestreamLoop_body (md5 : Digest128) (lblock : Nat) (st : StreamState)
    (h : 0 < st.lmsg) :
    codestreamLoop md5 lblock st.msg st.lmsg st.block st.b =
      codestreamLoop md5 lblock (codestreamBody md5 lblock st).msg
        (codestreamBody md5 lblock st).lmsg (codestreamBody md5 lblock st).block
        (codestreamBody md5 lblock st).b := by
  conv_lhs => rw [codestreamLoop]
  simp only [gt_iff_lt, h, dite_true, codestreamBody]

theorem decodestreamLoop_body (md5 : Digest128) (lblock : Nat) (st : StreamState)
    (h : 0 < st.lmsg) :
    decodestreamLoop md5 lblock st.msg st.lmsg st.block st.b =
      decodestreamLoop md5 lblock (decodestreamBody md5 lblock st).msg
        (decodestreamBody md5 lblock st).lmsg (decodestreamBody md5 lblock st).block
        (decodestreamBody md5 lblock st).b := by
  conv_lhs => rw [decodestreamLoop]
  simp only [gt_iff_lt, h, dite_true, decodestreamBody]

/-- One turn of the loop of `codestream` keeps the count in step with the pointer, the
length of the block, and every byte of the block from offset 16 on. -/
theorem codestreamBody_keeps (md5 : Digest128) (lblock : Nat) (st : StreamState)
    (hl : st.lmsg = st.msg.length) (hb : BLOCKSIZE ≤ st.block.length) :
    (codestreamBody md5 lblock st).lmsg = (codestreamBody md5 lblock st).msg.length ∧
      (codestreamBody md5 lblock st).block.length = st.block.length ∧
      (codestreamBody md5 lblock st).block.drop BLOCKSIZE = st.block.drop BLOCKSIZE := by
  have hc := (md5 (st.block.take lblock)).property
  have hfr := front_replace (List.zipWith bxor (md5 (st.block.take lblock)).val st.msg)
    st.block (min BLOCKSIZE st.msg.length) (by rw [List.length_zipWith, hc])
    (Nat.min_le_left _ _) hb
  simp only [codestreamBody, hl, xorLoop_zero _ st.msg hc, take_zipWith_code _ st.msg hc,
    memcpy, List.take_zero, List.nil_append, Nat.zero_add, List.length_drop]
  exact ⟨trivial, hfr.2, hfr.1⟩

/-- One turn of the loop of `decodestream` keeps the count in step with the pointer, the
length of the block, and every byte of the block from offset 16 on. -/
theorem decodestreamBody_keeps (md5 : Digest128) (lblock : Nat) (st : StreamState)
    (hl : st.lmsg = st.msg.length) (hb : BLOCKSIZE ≤ st.block.length) :
    (decodestreamBody md5 lblock st).lmsg = (decodestreamBody md5 lblock st).msg.length ∧
      (decodestreamBody md5 lblock st).block.length = st.block.length ∧
      (decodestreamBody md5 lblock st).block.drop BLOCKSIZE = st.block.drop BLOCKSIZE := by
  have hc := (md5 (st.block.take lblock)).property
  have hfr := front_replace (st.msg.take (min BLOCKSIZE st.msg.length))
    st.block (min BLOCKSIZE st.msg.length) (by rw [List.length_take]; omega)
    (Nat.min_le_left _ _) hb
  simp only [decodestreamBody, hl, xorLoop_zero _ st.msg hc,
    memcpy, List.take_zero, List.nil_append, Nat.zero_add, List.length_drop]
  exact ⟨trivial, hfr.2, hfr.1⟩

theorem codestreamBody_iterate (md5 : Digest128) (lblock : Nat) (st : StreamState)
    (hl : st.lmsg = st.msg.length) (hb : BLOCKSIZE ≤ st.block.length) (n : Nat) :
    ((codestreamBody md5 lblock)^[n] st).lmsg = ((codestreamBody md5 lblock)^[n] st).msg.length ∧
      ((codestreamBody md5 lblock)^[n] st).block.length = st.block.length ∧
      ((codestreamBody md5 lblock)^[n] st).block.drop BLOCKSIZE = st.block.drop BLOCKSIZE := by
  induction n with
  | zero => exact ⟨hl, rfl, rfl⟩
  | succ k ih =>
    rw [Function.iterate_succ_apply']
    have h := codestreamBody_keeps md5 lblock _ ih.1 (by rw [ih.2.1]; exact hb)
    exact ⟨h.1, h.2.1.trans ih.2.1, h.2.2.trans ih.2.2⟩

theorem decodestreamBody_iterate (md5 : Digest128) (lblock : Nat) (st : StreamState)
    (hl : st.lmsg = st.msg.length) (hb : BLOCKSIZE ≤ st.block.length) (n : Nat) :
    ((decodestreamBody md5 lblock)^[n] st).lmsg =
        ((decodestreamBody md5 lblock)^[n] st).msg.length ∧
      ((decodestreamBody md5 lblock)^[n] st).block.length = st.block.length ∧
      ((decodestreamBody md5 lblock)^[n] st).block.drop BLOCKSIZE
        = st.block.drop BLOCKSIZE := by
  induction n with
  | zero => exact ⟨hl, rfl, rfl⟩
  | succ k ih =>
    rw [Function.iterate_succ_apply']
    have h := decodestreamBody_keeps md5 lblock _ ih.1 (by rw [ih.2.1]; exact hb)
    exact ⟨h.1, h.2.1.trans ih.2.1, h.2.2.trans ih.2.2⟩

/-- C16. The key region of the block is invariant: `initblock`, from a seed of at most
16 bytes and a key of at most 256 bytes, returns a block of active length `16 + len K`;
the `while` loops of `codestream` and `decodestream` are the repetition of their loop
bodies with that length unchanged; and after any number of turns of either loop, from
any message, the first `16 + len K` bytes of the block are still that many, bytes
`16 .. 16 + len K` are the key, and every byte from offset 16 on is as `initblock` left
it: only bytes `0 .. 16` are rewritten. -/
theorem C16_key_region_invariant (md5 : Digest128) (K S blk msg : List Byte)
    (hk : K.length ≤ 256) (hs : S.length ≤ 16) (hb : blk.length = BLOCKSIZE + MAXKEY) :
    ∃ block0, initblock K S S.length blk = .ok (block0, 16 + K.length) ∧
      (∀ st : StreamState, 0 < st.lmsg →
        codestreamLoop md5 (16 + K.length) st.msg st.lmsg st.block st.b =
          codestreamLoop md5 (16 + K.length) (codestreamBody md5 (16 + K.length) st).msg
            (codestreamBody md5 (16 + K.length) st).lmsg
            (codestreamBody md5 (16 + K.length) st).block
            (codestreamBody md5 (16 + K.length) st).b) ∧
      (∀ st : StreamState, 0 < st.lmsg →
        decodestreamLoop md5 (16 + K.length) st.msg st.lmsg st.block st.b =
          decodestreamLoop md5 (16 + K.length) (decodestreamBody md5 (16 + K.length) st).msg
            (decodestreamBody md5 (16 + K.length) st).lmsg
            (decodestreamBody md5 (16 + K.length) st).block
            (decodestreamBody md5 (16 + K.length) st).b) ∧
      ∀ n : Nat,
        ((((codestreamBody md5 (16 + K.length))^[n] ⟨msg, msg.length, block0, []⟩).block.take
            (16 + K.length)).length = 16 + K.length ∧
          (((codestreamBody md5 (16 + K.length))^[n] ⟨msg, msg.length, block0, []⟩).block.take
            (16 + K.length)).drop 16 = K ∧
          ((codestreamBody md5 (16 + K.length))^[n] ⟨msg, msg.length, block0, []⟩).block.drop 16
            = block0.drop 16) ∧
        ((((decodestreamBody md5 (16 + K.length))^[n] ⟨msg, msg.length, block0, []⟩).block.take
            (16 + K.length)).length = 16 + K.length ∧
          (((decodestreamBody md5 (16 + K.length))^[n] ⟨msg, msg.length, block0, []⟩).block.take
            (16 + K.length)).drop 16 = K ∧
          ((decodestreamBody md5 (16 + K.length))^[n] ⟨msg, msg.length, block0, []⟩).block.drop 16
            = block0.drop 16) := by
  have hinit : initblock K S S.length blk =
      .ok (zeropad16 S ++ K ++ blk.drop (BLOCKSIZE + K.length), 16 + K.length) := by
    rw [initblock_ok _ _ _ _ hk, initblock_layout K S blk hs, Nat.add_comm K.length BLOCKSIZE]
    rfl
  have hz := zeropad16_length S hs
  have hlen0 : (zeropad16 S ++ K ++ blk.drop (BLOCKSIZE + K.length)).length
      = BLOCKSIZE + MAXKEY := by
    simp only [List.length_append, List.length_drop, hz, hb, MAXKEY]
    omega
  have hdrop0 : (zeropad16 S ++ K ++ blk.drop (BLOCKSIZE + K.length)).drop 16
      = K ++ blk.drop (BLOCKSIZE + K.length) := by
    rw [List.append_assoc]
    exact List.drop_left' hz
  have hfinal : ∀ b : List Byte, b.length = BLOCKSIZE + MAXKEY →
      b.drop 16 = K ++ blk.drop (BLOCKSIZE + K.length) →
      (b.take (16 + K.length)).length = 16 + K.length ∧ (b.take (16 + K.length)).drop 16 = K := by
    intro b hbl hbd
    constructor
    · rw [List.length_take, hbl]
      simp only [BLOCKSIZE, MAXKEY]
      omega
    · rw [List.drop_take, Nat.add_sub_cancel_left, hbd]
      exact List.take_left' rfl
  refine ⟨_, hinit, fun st h => codestreamLoop_body md5 _ st h,
    fun st h => decodestreamLoop_body md5 _ st h, ?_⟩
  intro n
  have hb16 : BLOCKSIZE ≤ (zeropad16 S ++ K ++ blk.drop (BLOCKSIZE + K.length)).length := by
    rw [hlen0]; exact Nat.le_add_right _ _
  have he := codestreamBody_iterate md5 (16 + K.length)
    ⟨msg, msg.length, zeropad16 S ++ K ++ blk.drop (BLOCKSIZE + K.length), []⟩ rfl hb16 n
  have hd := decodestreamBody_iterate md5 (16 + K.length)
    ⟨msg, msg.length, zeropad16 S ++ K ++ blk.drop (BLOCKSIZE + K.length), []⟩ rfl hb16 n
  have he2 := hfinal _ (he.2.1.trans hlen0) (he.2.2.trans hdrop0)
  have hd2 := hfinal _ (hd.2.1.trans hlen0) (hd.2.2.trans hdrop0)
  exact ⟨⟨he2.1, he2.2, he.2.2⟩, ⟨hd2.1, hd2.2, hd.2.2⟩⟩

theorem C16_key_region_invariant_witness :
    ∃ block0, initblock [1, 2, 3] [9] 1 freshBlock = .ok (block0, 16 + 3) ∧
      ∀ n : Nat,
        ((codestreamBody sampleDigest (16 + 3))^[n] ⟨[5, 6], 2, block0, []⟩).block.drop 16
          = block0.drop 16 := by
  obtain ⟨b0, h1, _, _, h4⟩ := C16_key_region_invariant sampleDigest [1, 2, 3] [9] freshBlock
    [5, 6] (by decide) (by decide) (List.length_replicate _ _)
  exact ⟨b0, h1, fun n => (h4 n).1.2.2⟩

/-! ## Hexadecimal -/

set_option maxRecDepth 100000 in
theorem sprintf_02x_byte : ∀ v : Fin 256,
    sprintf_02x v.val = [hexDigit (v.val / 16), hexDigit (v.val % 16)] := by
  decide

set_option maxRecDepth 100000 in
theorem andFF_intOfChar : ∀ (charSigned : Bool) (c : Byte),
    andFF (intOfChar charSigned c) = c.val := by
  decide

set_option maxRecDepth 100000 in
theorem hexDigit_range : ∀ d : Fin 16,
    (48 ≤ (hexDigit d.val).val ∧ (hexDigit d.val).val ≤ 57) ∨
      (97 ≤ (hexDigit d.val).val ∧ (hexDigit d.val).val ≤ 102) := by
  decide

theorem tohex_loop_eq (charSigned : Bool) (str : List Byte) (k : Nat) :
    ∀ (i : Nat) (b : List Byte), i + k = str.length →
      tohex_loop charSigned str str.length i b = b ++ hexEncode (str.drop i) := by
  induction k with
  | zero =>
    intro i b h
    rw [tohex_loop, if_neg (by omega), List.drop_of_length_le (by omega)]
    simp [hexEncode]
  | succ n ih =>
    intro i b h
    have hi : i < str.length := by omega
    rw [tohex_loop, if_pos hi]
    simp only []
    rw [ih (i + 1) _ (by omega), List.drop_eq_getElem_cons hi]
    have hget : str.getD i 0 = str[i] := by
      rw [List.getD_eq_getElem?_getD, List.getElem?_eq_getElem hi]; rfl
    rw [hget, andFF_intOfChar, sprintf_02x_byte]
    simp [hexEncode]

theorem tohex_eq (charSigned : Bool) (str : List Byte) :
    tohex charSigned str = hexEncode str := by
  have h := tohex_loop_eq charSigned str str.length 0 [] (by omega)
  simpa [tohex] using h

theorem hexEncode_length : ∀ s : List Byte, (hexEncode s).length = 2 * s.length := by
  intro s
  induction s with
  | nil => rfl
  | cons c t ih => simp only [hexEncode, List.length_cons, ih]; omega

theorem hexEncode_mem : ∀ (s : List Byte) (x : Byte), x ∈ hexEncode s →
    (48 ≤ x.val ∧ x.val ≤ 57) ∨ (97 ≤ x.val ∧ x.val ≤ 102) := by
  intro s
  induction s with
  | nil => intro x h; simp [hexEncode] at h
  | cons c t ih =>
    intro x h
    simp only [hexEncode, List.mem_cons] at h
    rcases h with h | h | h
    · rw [h]
      exact hexDigit_range ⟨c.val / 16, by have := c.isLt; omega⟩
    · rw [h]
      exact hexDigit_range ⟨c.val % 16, by omega⟩
    · exact ih x h

theorem hexEncode_get : ∀ (s : List Byte) (i : Nat) (h : i < s.length),
    (hexEncode s)[2 * i]? = some (hexDigit ((s.get ⟨i, h⟩).val / 16)) ∧
      (hexEncode s)[2 * i + 1]? = some (hexDigit ((s.get ⟨i, h⟩).val % 16)) := by
  intro s
  induction s with
  | nil => intro i h; simp at h
  | cons c t ih =>
    intro i h
    cases i with
    | zero => simp [hexEncode]
    | succ j =>
      have hj : j < t.length := by simpa using h
      have e1 : 2 * (j + 1) = 2 * j + 1 + 1 := by omega
      have e2 : 2 * (j + 1) + 1 = 2 * j + 1 + 1 + 1 := by omega
      have := ih j hj
      simp only [hexEncode, e1, e2, List.getElem?_cons_succ, List.get_cons_succ]
      simpa using this

/-- C13. Hex encoding: for every byte string, `tohex` returns exactly two characters
per byte, every one of them among `0`-`9` and `a`-`f`, and for every index `i` the
characters at positions `2 i` and `2 i + 1` are the digits of the high and of the low
four bits of byte `i` taken as an unsigned value, also for bytes of `0x80` and more and
whether `char` is signed or not. -/
theorem C13_hex_encoding (charSigned : Bool) (s : List Byte) :
    (tohex charSigned s).length = 2 * s.length ∧
    (∀ x ∈ tohex charSigned s,
      (48 ≤ x.val ∧ x.val ≤ 57) ∨ (97 ≤ x.val ∧ x.val ≤ 102)) ∧
    (∀ (i : Nat) (h : i < s.length),
      (tohex charSigned s)[2 * i]? = some (hexDigit ((s.get ⟨i, h⟩).val / 16)) ∧
      (tohex charSigned s)[2 * i + 1]? = some (hexDigit ((s.get ⟨i, h⟩).val % 16))) ∧
    tohex charSigned [0x00, 0x7f, 0x80, 0xab, 0xff] =
      [48, 48, 55, 102, 56, 48, 97, 98, 102, 102] := by
  rw [tohex_eq, tohex_eq]
  exact ⟨hexEncode_length s, hexEncode_mem s, hexEncode_get s, by decide⟩

/-! ## The incremental digest on a finalized context -/

end Md5lib
